import Mathlib

/-!
Option pricing library: a shallow embedding and its verified properties.

The C++ sources `option_pricing.hpp` and `black_scholes.hpp` are embedded
function by function.  A C++ `double` is modelled as a real number, so the
arithmetic is exact and `x / 0 = 0`; the embedding agrees with the code
wherever every divisor is non-zero, and the integer divisors are exposed as
definitions of their own so that this can be stated.  A C++ `int` that only
counts loop rounds is an `Int`, with `Int.tdiv` for the truncating division.
The C library functions `exp`, `log`, `sqrt` and `pow` are the real
functions of the same name.
-/

open MeasureTheory

noncomputable section

namespace OptionPricing

/-! ## Constants and library functions used by the source -/

/-- Modelled from the spec: `std::erfc` of the C library, the complementary
error function `erfc x = 2/sqrt(pi) * integral of exp(-t^2) for t > x`, which
the source calls but does not define. -/
def erfc (x : ℝ) : ℝ :=
  2 / Real.sqrt Real.pi * ∫ t in Set.Ioi x, Real.exp (-t ^ 2)

/-- Modelled from the spec: the macro `M_SQRT1_2` of `<cmath>`, `1/sqrt(2)`. -/
def M_SQRT1_2 : ℝ := 1 / Real.sqrt 2

/-- Modelled from the spec: the macro `M_PI` of `<cmath>`. -/
def M_PI : ℝ := Real.pi

namespace BlackScholes

/-- Source `BlackScholes::norm_cdf`: `0.5 * std::erfc(-x * M_SQRT1_2)`. -/
def norm_cdf (x : ℝ) : ℝ :=
  0.5 * erfc (-x * M_SQRT1_2)

/-- Source `BlackScholes::norm_pdf`. -/
def norm_pdf (x : ℝ) : ℝ :=
  Real.exp (-0.5 * x * x) / Real.sqrt (2.0 * M_PI)

/-- Source `BlackScholes::calculate_d1`. -/
def calculate_d1 (S K T r sigma : ℝ) : ℝ :=
  (Real.log (S / K) + (r + 0.5 * sigma * sigma) * T) / (sigma * Real.sqrt T)

/-- Source `BlackScholes::calculate_d2`. -/
def calculate_d2 (d1 sigma T : ℝ) : ℝ :=
  d1 - sigma * Real.sqrt T

/-- Source `BlackScholes::call_price`. -/
def call_price (S K T r sigma : ℝ) : ℝ :=
  let d1 := calculate_d1 S K T r sigma
  let d2 := calculate_d2 d1 sigma T
  S * norm_cdf d1 - K * Real.exp (-r * T) * norm_cdf d2

/-- Source `BlackScholes::put_price`. -/
def put_price (S K T r sigma : ℝ) : ℝ :=
  let d1 := calculate_d1 S K T r sigma
  let d2 := calculate_d2 d1 sigma T
  K * Real.exp (-r * T) * norm_cdf (-d2) - S * norm_cdf (-d1)

/-- Source `BlackScholes::Greeks`. -/
structure Greeks where
  delta : ℝ
  gamma : ℝ
  vega : ℝ
  theta : ℝ
  rho : ℝ

/-- Source `BlackScholes::calculate_greeks`: the branch on `is_call` sets
delta, theta and rho; gamma and vega are set after it for both kinds. -/
def calculate_greeks (S K T r sigma : ℝ) (is_call : Bool) : Greeks :=
  let d1 := calculate_d1 S K T r sigma
  let d2 := calculate_d2 d1 sigma T
  let sqrt_T := Real.sqrt T
  let pdf_d1 := norm_pdf d1
  let cdf_d1 := norm_cdf d1
  let cdf_d2 := norm_cdf d2
  { delta := if is_call then cdf_d1 else cdf_d1 - 1.0
    theta :=
      if is_call then
        -(S * pdf_d1 * sigma) / (2 * sqrt_T) - r * K * Real.exp (-r * T) * cdf_d2
      else
        -(S * pdf_d1 * sigma) / (2 * sqrt_T) + r * K * Real.exp (-r * T) * norm_cdf (-d2)
    rho :=
      if is_call then K * T * Real.exp (-r * T) * cdf_d2
      else -K * T * Real.exp (-r * T) * norm_cdf (-d2)
    gamma := pdf_d1 / (S * sigma * sqrt_T)
    vega := S * pdf_d1 * sqrt_T }

end BlackScholes

/-! ## Control flow and the payoff expression shared by the engines -/

/-- The loop `for (int k = 0; k < n; ++k) body(k)` on an explicit state. -/
def loopUp {α : Type} (body : Nat → α → α) : Nat → α → α
  | 0, s => s
  | k + 1, s => body k (loopUp body k s)

/-- The loop `for (int k = n - 1; k >= 0; --k) body(k)` on an explicit state. -/
def loopDown {α : Type} (body : Nat → α → α) : Nat → α → α
  | 0, s => s
  | k + 1, s => loopDown body k (body k s)

/-- The source expression `is_call ? std::max(x - K, 0.0) : std::max(K - x, 0.0)`,
written out at every payoff site of `MonteCarlo` and `BinomialTree`. -/
def payoff (is_call : Bool) (K x : ℝ) : ℝ :=
  if is_call then max (x - K) 0.0 else max (K - x) 0.0

namespace MonteCarlo

/-- Modelled from the spec: the members `std::mt19937 gen` and
`std::normal_distribution<> normal` of the standard library, "a reproducible,
advanceable stream of standard-normal variates".  The state `σ` is the pair
of both members, `seed` is what the constructor `MonteCarlo(seed)` builds and
`draw` is the call `normal(gen)`: the variate and the advanced state. -/
structure Generator (σ : Type) where
  seed : Nat → σ
  draw : σ → ℝ × σ

/-- The default argument of the constructor `MonteCarlo(unsigned seed = 42)`. -/
def default_seed : Nat := 42

/-- Source constructor `MonteCarlo(unsigned seed)`: the generator state of a
fresh instance. -/
def init {σ : Type} (G : Generator σ) (seed : Nat) : σ := G.seed seed

/-- The source expression `n_simulations / 2` of `european_option`, an `int`
division that truncates toward zero; it is the loop bound and the divisor of
the final average. -/
def european_divisor (n_simulations : Int) : Int := Int.tdiv n_simulations 2

/-- One round of the loop of `european_option` on the state
`(payoff_sum, gen)`: one draw `Z`, the two mirrored terminal prices, and
`payoff_sum += (payoff1 + payoff2) / 2.0`. -/
def european_round {σ : Type} (G : Generator σ) (S0 K drift vol : ℝ) (is_call : Bool)
    (_i : Nat) (st : ℝ × σ) : ℝ × σ :=
  let Z := (G.draw st.2).1
  let ST1 := S0 * Real.exp (drift + vol * Z)
  let payoff1 := payoff is_call K ST1
  let ST2 := S0 * Real.exp (drift - vol * Z)
  let payoff2 := payoff is_call K ST2
  (st.1 + (payoff1 + payoff2) / 2.0, (G.draw st.2).2)

/-- Source `MonteCarlo::european_option`; returns the price and the generator
state the call leaves behind. -/
def european_option {σ : Type} (G : Generator σ) (gen : σ) (S0 K T r sigma : ℝ)
    (n_simulations : Int) (is_call : Bool) : ℝ × σ :=
  let drift := (r - 0.5 * sigma * sigma) * T
  let vol := sigma * Real.sqrt T
  let discount := Real.exp (-r * T)
  let st := loopUp (european_round G S0 K drift vol is_call)
    (european_divisor n_simulations).toNat (0.0, gen)
  (discount * st.1 / ((european_divisor n_simulations : Int) : ℝ), st.2)

/-- The divisor of the final average of `asian_option`: `n_simulations`. -/
def asian_divisor (n_simulations : Int) : Int := n_simulations

/-- One round of the inner loop of `asian_option` on the state
`(S, avg, gen)`: `S *= exp(drift + vol * normal(gen)); avg += S`. -/
def asian_step {σ : Type} (G : Generator σ) (drift vol : ℝ) (_j : Nat)
    (st : ℝ × ℝ × σ) : ℝ × ℝ × σ :=
  let S := st.1 * Real.exp (drift + vol * (G.draw st.2.2).1)
  (S, st.2.1 + S, (G.draw st.2.2).2)

/-- One round of the outer loop of `asian_option` on the state
`(payoff_sum, gen)`: one simulated path, `avg /= n_steps`, and
`payoff_sum += payoff`. -/
def asian_path {σ : Type} (G : Generator σ) (S0 K drift vol : ℝ) (n_steps : Int)
    (is_call : Bool) (_i : Nat) (st : ℝ × σ) : ℝ × σ :=
  let path := loopUp (asian_step G drift vol) n_steps.toNat (S0, 0.0, st.2)
  let avg := path.2.1 / (n_steps : ℝ)
  (st.1 + payoff is_call K avg, path.2.2)

/-- Source `MonteCarlo::asian_option`; returns the price and the generator
state the call leaves behind. -/
def asian_option {σ : Type} (G : Generator σ) (gen : σ) (S0 K T r sigma : ℝ)
    (n_simulations n_steps : Int) (is_call : Bool) : ℝ × σ :=
  let dt := T / (n_steps : ℝ)
  let drift := (r - 0.5 * sigma * sigma) * dt
  let vol := sigma * Real.sqrt dt
  let discount := Real.exp (-r * T)
  let st := loopUp (asian_path G S0 K drift vol n_steps is_call)
    n_simulations.toNat (0.0, gen)
  (discount * st.1 / ((asian_divisor n_simulations : Int) : ℝ), st.2)

/-- The `i`-th state after `gen` in the generator's run: `i` draws later. -/
def state_after {σ : Type} (G : Generator σ) (gen : σ) : Nat → σ
  | 0 => gen
  | i + 1 => (G.draw (state_after G gen i)).2

/-- The `i`-th variate of the generator stream that starts at state `gen`. -/
def variate {σ : Type} (G : Generator σ) (gen : σ) (i : Nat) : ℝ :=
  (G.draw (state_after G gen i)).1

/-- The generator as an explicit stream `z` of variates: the state is the
position of the first unread variate and a draw reads it and moves on. -/
def stream (z : Nat → ℝ) : Generator Nat where
  seed := fun _ => 0
  draw := fun pos => (z pos, pos + 1)

/-- A call made on a simulator instance, with its arguments. -/
inductive Call where
  | european (S0 K T r sigma : ℝ) (n_simulations : Int) (is_call : Bool)
  | asian (S0 K T r sigma : ℝ) (n_simulations n_steps : Int) (is_call : Bool)

/-- A call executed on an instance whose generator is in state `gen`. -/
def Call.exec {σ : Type} (G : Generator σ) (gen : σ) : Call → ℝ × σ
  | .european S0 K T r sigma n c => european_option G gen S0 K T r sigma n c
  | .asian S0 K T r sigma n m c => asian_option G gen S0 K T r sigma n m c

/-- A sequence of calls made one after the other on one instance: the results
in call order and the final generator state. -/
def run {σ : Type} (G : Generator σ) : List Call → σ → List ℝ × σ
  | [], gen => ([], gen)
  | c :: cs, gen =>
    let res := c.exec G gen
    let tl := run G cs res.2
    (res.1 :: tl.1, tl.2)

end MonteCarlo

namespace BinomialTree

/-- Source local `dt = T / n_steps` of `american_option`. -/
def dt (T : ℝ) (n_steps : Nat) : ℝ := T / (n_steps : ℝ)

/-- Source local `u = exp(sigma * sqrt(dt))`, the up factor. -/
def u (T sigma : ℝ) (n_steps : Nat) : ℝ := Real.exp (sigma * Real.sqrt (dt T n_steps))

/-- Source local `d = 1.0 / u`, the down factor. -/
def d (T sigma : ℝ) (n_steps : Nat) : ℝ := 1.0 / u T sigma n_steps

/-- Source local `p = (exp(r * dt) - d) / (u - d)`, the risk-neutral
probability. -/
def p (T r sigma : ℝ) (n_steps : Nat) : ℝ :=
  (Real.exp (r * dt T n_steps) - d T sigma n_steps) / (u T sigma n_steps - d T sigma n_steps)

/-- Source local `discount = exp(-r * dt)`. -/
def discount (T r : ℝ) (n_steps : Nat) : ℝ := Real.exp (-r * dt T n_steps)

/-- The forward loop: `prices[i] = S0 * pow(u, n_steps - i) * pow(d, i)` for
`i = 0 .. n_steps` on a vector of `n_steps + 1` zero-initialised entries. -/
def initial_prices (S0 T sigma : ℝ) (n_steps : Nat) : List ℝ :=
  loopUp
    (fun i prices =>
      prices.set i (S0 * u T sigma n_steps ^ (n_steps - i) * d T sigma n_steps ^ i))
    (n_steps + 1) (List.replicate (n_steps + 1) 0)

/-- The maturity loop: `values[i]` is the payoff of `prices[i]` for
`i = 0 .. n_steps`. -/
def initial_values (K : ℝ) (is_call : Bool) (prices : List ℝ) (n_steps : Nat) : List ℝ :=
  loopUp (fun i values => values.set i (payoff is_call K (prices.getD i 0)))
    (n_steps + 1) (List.replicate (n_steps + 1) 0)

/-- The body of the inner loop of the backward induction at node `i`, on the
state `(prices, values)`: the price is divided by `u` in place, then the
continuation value is read from `values[i]` and `values[i + 1]`, and
`values[i]` is overwritten with the larger of continuation and exercise. -/
def node_update (K up prob disc : ℝ) (is_call : Bool) (i : Nat)
    (st : List ℝ × List ℝ) : List ℝ × List ℝ :=
  let prices := st.1.set i (st.1.getD i 0 / up)
  let continuation := disc * (prob * st.2.getD i 0 + (1 - prob) * st.2.getD (i + 1) 0)
  let exercise := payoff is_call K (prices.getD i 0)
  (prices, st.2.set i (max continuation exercise))

/-- The body of the outer loop at `step`: the inner loop `i = 0 .. step`. -/
def backward_step (K up prob disc : ℝ) (is_call : Bool) (step : Nat)
    (st : List ℝ × List ℝ) : List ℝ × List ℝ :=
  loopUp (node_update K up prob disc is_call) (step + 1) st

/-- Source `BinomialTree::american_option`.  The step count is a natural
number: for a negative `n_steps` the source has no defined result. -/
def american_option (S0 K T r sigma : ℝ) (n_steps : Nat) (is_call : Bool) : ℝ :=
  let prices := initial_prices S0 T sigma n_steps
  let values := initial_values K is_call prices n_steps
  let st := loopDown
    (backward_step K (u T sigma n_steps) (p T r sigma n_steps) (discount T r n_steps) is_call)
    n_steps (prices, values)
  st.2.getD 0 0

/-- The vectors `(prices, values)` of `american_option` after the first
`rounds` rounds of the outer loop, that is after the steps
`n_steps - 1, ..., n_steps - rounds`. -/
def backward_state (S0 K T r sigma : ℝ) (n_steps : Nat) (is_call : Bool)
    (rounds : Nat) : List ℝ × List ℝ :=
  loopUp
    (fun k =>
      backward_step K (u T sigma n_steps) (p T r sigma n_steps) (discount T r n_steps)
        is_call (n_steps - 1 - k))
    rounds
    (initial_prices S0 T sigma n_steps,
      initial_values K is_call (initial_prices S0 T sigma n_steps) n_steps)

/-- Reference node price of the CRR lattice, recomputed from scratch:
`S0 * u^(s - i) * d^i` at step `s`, node `i`. -/
def node_price (S0 T sigma : ℝ) (n_steps s i : Nat) : ℝ :=
  S0 * u T sigma n_steps ^ (s - i) * d T sigma n_steps ^ i

/-- Reference recursion of the CRR lattice with early exercise, by the number
`m` of steps left to maturity: with no step left the value is the payoff of
the node price, otherwise the larger of the discounted expectation of the two
successor values and the payoff of the node price. -/
def crr_value (S0 K T r sigma : ℝ) (n_steps : Nat) (is_call : Bool) : Nat → Nat → Nat → ℝ
  | 0, s, i => payoff is_call K (node_price S0 T sigma n_steps s i)
  | m + 1, s, i =>
    max
      (discount T r n_steps *
        (p T r sigma n_steps * crr_value S0 K T r sigma n_steps is_call m (s + 1) i
          + (1 - p T r sigma n_steps)
            * crr_value S0 K T r sigma n_steps is_call m (s + 1) (i + 1)))
      (payoff is_call K (node_price S0 T sigma n_steps s i))

/-- Reference value `V(s, i)` of the recursive CRR definition on a lattice of
`n_steps` steps. -/
def V (S0 K T r sigma : ℝ) (n_steps : Nat) (is_call : Bool) (s i : Nat) : ℝ :=
  crr_value S0 K T r sigma n_steps is_call (n_steps - s) s i

/-- Reference: the inner-loop body of the same backward induction with
`values[i]` set to the continuation value alone (no exercise test). -/
def node_update_european (up prob disc : ℝ) (i : Nat)
    (st : List ℝ × List ℝ) : List ℝ × List ℝ :=
  let prices := st.1.set i (st.1.getD i 0 / up)
  let continuation := disc * (prob * st.2.getD i 0 + (1 - prob) * st.2.getD (i + 1) 0)
  (prices, st.2.set i continuation)

/-- Reference: the European value on the same lattice, the backward induction
of `american_option` without the exercise test. -/
def european_lattice (S0 K T r sigma : ℝ) (n_steps : Nat) (is_call : Bool) : ℝ :=
  let prices := initial_prices S0 T sigma n_steps
  let values := initial_values K is_call prices n_steps
  let st := loopDown
    (fun step =>
      loopUp
        (node_update_european (u T sigma n_steps) (p T r sigma n_steps) (discount T r n_steps))
        (step + 1))
    n_steps (prices, values)
  st.2.getD 0 0

/-- Invariant of the backward induction once every step above `s` is
done: both vectors keep their length, and for each node `i <= s` the stored
price is the node price of step `s` and the stored value is `V(s, i)`. -/
def lattice_inv (S0 K T r sigma : ℝ) (n_steps : Nat) (is_call : Bool) (s : Nat)
    (st : List ℝ × List ℝ) : Prop :=
  st.1.length = n_steps + 1 ∧ st.2.length = n_steps + 1
  ∧ ∀ i, i ≤ s →
      st.1.getD i 0 = node_price S0 T sigma n_steps s i
      ∧ st.2.getD i 0 = V S0 K T r sigma n_steps is_call s i

/-- Invariant of the inner loop of step `s` when the nodes below `k` are
done: these hold the data of step `s`, the nodes `k .. s + 1` still hold the
data of step `s + 1`. -/
def node_inv (S0 K T r sigma : ℝ) (n_steps : Nat) (is_call : Bool) (s k : Nat)
    (st : List ℝ × List ℝ) : Prop :=
  st.1.length = n_steps + 1 ∧ st.2.length = n_steps + 1
  ∧ (∀ i, i < k →
      st.1.getD i 0 = node_price S0 T sigma n_steps s i
      ∧ st.2.getD i 0 = V S0 K T r sigma n_steps is_call s i)
  ∧ ∀ i, k ≤ i → i ≤ s + 1 →
      st.1.getD i 0 = node_price S0 T sigma n_steps (s + 1) i
      ∧ st.2.getD i 0 = V S0 K T r sigma n_steps is_call (s + 1) i

end BinomialTree

/-! ## The lattice with every division and vector access checked -/

/-- The loop `for (int k = 0; k < n; ++k) body(k)` for a body that can fail. -/
def loopUpM {α : Type} (body : Nat → α → Option α) : Nat → α → Option α
  | 0, s => some s
  | k + 1, s => (loopUpM body k s).bind (body k)

/-- The loop `for (int k = n - 1; k >= 0; --k) body(k)` for a body that can
fail. -/
def loopDownM {α : Type} (body : Nat → α → Option α) : Nat → α → Option α
  | 0, s => some s
  | k + 1, s => (body k s).bind (loopDownM body k)

/-- A read `v[i]` of a `std::vector<double>`: defined only for an index below
the size. -/
def readAt (v : List ℝ) (i : Nat) : Option ℝ := v[i]?

/-- A write `v[i] = x` to a `std::vector<double>`: defined only for an index
below the size. -/
def writeAt (v : List ℝ) (i : Nat) (x : ℝ) : Option (List ℝ) :=
  if i < v.length then some (v.set i x) else none

/-- A division `x / y`, counted as defined only for a non-zero divisor. -/
def divide (x y : ℝ) : Option ℝ := if y = 0 then none else some (x / y)

namespace BinomialTree

/-- The inner-loop body of `american_option` with each vector access and the
division by `u` checked, in source order. -/
def node_update_checked (K up prob disc : ℝ) (is_call : Bool) (i : Nat)
    (st : List ℝ × List ℝ) : Option (List ℝ × List ℝ) := do
  let old ← readAt st.1 i
  let quotient ← divide old up
  let prices ← writeAt st.1 i quotient
  let vi ← readAt st.2 i
  let vi1 ← readAt st.2 (i + 1)
  let continuation := disc * (prob * vi + (1 - prob) * vi1)
  let price ← readAt prices i
  let exercise := payoff is_call K price
  let values ← writeAt st.2 i (max continuation exercise)
  pure (prices, values)

/-- Source `BinomialTree::american_option` with every division and every
vector access checked: the result is `none` as soon as a divisor is zero or an
index is not below the vector size `n_steps + 1`. -/
def american_option_checked (S0 K T r sigma : ℝ) (n_steps : Nat) (is_call : Bool) :
    Option ℝ := do
  let dt ← divide T (n_steps : ℝ)
  let u := Real.exp (sigma * Real.sqrt dt)
  let d ← divide 1.0 u
  let p ← divide (Real.exp (r * dt) - d) (u - d)
  let discount := Real.exp (-r * dt)
  let prices ← loopUpM (fun i prices => writeAt prices i (S0 * u ^ (n_steps - i) * d ^ i))
    (n_steps + 1) (List.replicate (n_steps + 1) 0)
  let values ← loopUpM
    (fun i values => do
      let price ← readAt prices i
      writeAt values i (payoff is_call K price))
    (n_steps + 1) (List.replicate (n_steps + 1) 0)
  let st ← loopDownM
    (fun step st => loopUpM (node_update_checked K u p discount is_call) (step + 1) st)
    n_steps (prices, values)
  readAt st.2 0

end BinomialTree

/-! ## The simulator on doubles that may be NaN -/

/-- The result of `std::sqrt`: NaN, written `none`, for a negative argument. -/
def sqrt_checked (x : ℝ) : Option ℝ := if 0 ≤ x then some (Real.sqrt x) else none

namespace MonteCarlo

/-- One round of the loop of `european_option` when `vol` and `payoff_sum`
may be NaN (`none`).  NaN passes through `*`, `+`, `-`, `exp` and through
`std::max(x, 0.0)`, which returns its first argument when that is NaN; the
generator advances in any case. -/
def european_round_nan {σ : Type} (G : Generator σ) (S0 K drift : ℝ) (vol : Option ℝ)
    (is_call : Bool) (_i : Nat) (st : Option ℝ × σ) : Option ℝ × σ :=
  let Z := (G.draw st.2).1
  let ST1 := vol.map fun v => S0 * Real.exp (drift + v * Z)
  let payoff1 := ST1.map (payoff is_call K)
  let ST2 := vol.map fun v => S0 * Real.exp (drift - v * Z)
  let payoff2 := ST2.map (payoff is_call K)
  (st.1.bind fun s => payoff1.bind fun p1 => payoff2.map fun p2 => s + (p1 + p2) / 2.0,
    (G.draw st.2).2)

/-- Source `MonteCarlo::european_option` on doubles that may be NaN: the
square root of a negative `T` and a division by zero give `none`, a value
that is not a finite number. -/
def european_option_nan {σ : Type} (G : Generator σ) (gen : σ) (S0 K T r sigma : ℝ)
    (n_simulations : Int) (is_call : Bool) : Option ℝ × σ :=
  let drift := (r - 0.5 * sigma * sigma) * T
  let vol := (sqrt_checked T).map fun root => sigma * root
  let discount := Real.exp (-r * T)
  let st := loopUp (european_round_nan G S0 K drift vol is_call)
    (european_divisor n_simulations).toNat (some 0.0, gen)
  (st.1.bind fun s => divide (discount * s) ((european_divisor n_simulations : Int) : ℝ), st.2)

/-- One round of the inner loop of `asian_option` on the state
`(S, avg, gen)` when `drift`, `vol`, `S` and `avg` may be NaN (`none`). -/
def asian_step_nan {σ : Type} (G : Generator σ) (drift vol : Option ℝ) (_j : Nat)
    (st : Option ℝ × Option ℝ × σ) : Option ℝ × Option ℝ × σ :=
  let S := st.1.bind fun s => drift.bind fun dr => vol.map fun v =>
    s * Real.exp (dr + v * (G.draw st.2.2).1)
  (S, st.2.1.bind fun a => S.map fun s => a + s, (G.draw st.2.2).2)

/-- One round of the outer loop of `asian_option` when values may be NaN
(`none`); `avg /= n_steps` is a checked division. -/
def asian_path_nan {σ : Type} (G : Generator σ) (S0 K : ℝ) (drift vol : Option ℝ)
    (n_steps : Int) (is_call : Bool) (_i : Nat) (st : Option ℝ × σ) : Option ℝ × σ :=
  let path := loopUp (asian_step_nan G drift vol) n_steps.toNat (some S0, some 0.0, st.2)
  let avg := path.2.1.bind fun a => divide a (n_steps : ℝ)
  let payoff := avg.map (payoff is_call K)
  (st.1.bind fun s => payoff.map fun x => s + x, path.2.2)

/-- Source `MonteCarlo::asian_option` on doubles that may be NaN: a division
by zero and the square root of a negative `dt` give `none`, a value that is
not a finite number. -/
def asian_option_nan {σ : Type} (G : Generator σ) (gen : σ) (S0 K T r sigma : ℝ)
    (n_simulations n_steps : Int) (is_call : Bool) : Option ℝ × σ :=
  let dt := divide T (n_steps : ℝ)
  let drift := dt.map fun x => (r - 0.5 * sigma * sigma) * x
  let vol := (dt.bind sqrt_checked).map fun root => sigma * root
  let discount := Real.exp (-r * T)
  let st := loopUp (asian_path_nan G S0 K drift vol n_steps is_call)
    n_simulations.toNat (some 0.0, gen)
  (st.1.bind fun s => divide (discount * s) ((asian_divisor n_simulations : Int) : ℝ), st.2)

end MonteCarlo

end OptionPricing

/-! ## The second Black-Scholes implementation, `black_scholes.hpp` -/

namespace FinancialMath

/-- Modelled from the spec: `std::erf` of the C library, the error function
`erf x = 2/sqrt(pi) * integral of exp(-t^2) for t from 0 to x`, which the
source calls but does not define. -/
def erf (x : ℝ) : ℝ :=
  2 / Real.sqrt Real.pi * ∫ t in (0 : ℝ)..x, Real.exp (-t ^ 2)

/-- Modelled from the spec: the macro `M_SQRT2` of `<cmath>`, `sqrt(2)`. -/
def M_SQRT2 : ℝ := Real.sqrt 2

/-- Modelled from the spec: the macro `M_PI` of `<cmath>`. -/
def M_PI : ℝ := Real.pi

namespace BlackScholes

/-- Source `FinancialMath::BlackScholes::norm_cdf`:
`0.5 * (1 + std::erf(x / M_SQRT2))`. -/
def norm_cdf (x : ℝ) : ℝ :=
  0.5 * (1 + erf (x / M_SQRT2))

/-- Source `FinancialMath::BlackScholes::norm_pdf`. -/
def norm_pdf (x : ℝ) : ℝ :=
  Real.exp (-0.5 * x * x) / Real.sqrt (2 * M_PI)

/-- Source `FinancialMath::BlackScholes::call_price`. -/
def call_price (S K T r sigma : ℝ) : ℝ :=
  let d1 := (Real.log (S / K) + (r + 0.5 * sigma * sigma) * T) / (sigma * Real.sqrt T)
  let d2 := d1 - sigma * Real.sqrt T
  S * norm_cdf d1 - K * Real.exp (-r * T) * norm_cdf d2

/-- Source `FinancialMath::BlackScholes::put_price`. -/
def put_price (S K T r sigma : ℝ) : ℝ :=
  let d1 := (Real.log (S / K) + (r + 0.5 * sigma * sigma) * T) / (sigma * Real.sqrt T)
  let d2 := d1 - sigma * Real.sqrt T
  K * Real.exp (-r * T) * norm_cdf (-d2) - S * norm_cdf (-d1)

end BlackScholes

end FinancialMath

namespace OptionPricing

/-! ## Facts about the library functions -/

theorem gauss_integrable : Integrable (fun t : ℝ => Real.exp (-t ^ 2)) := by
  have h := integrable_exp_neg_mul_sq (b := 1) one_pos
  simpa using h

theorem gauss_integral : ∫ t : ℝ, Real.exp (-t ^ 2) = Real.sqrt Real.pi := by
  have h := integral_gaussian 1
  simpa using h

theorem gauss_tail_reflect (x : ℝ) :
    ∫ t in Set.Ioi (-x), Real.exp (-t ^ 2) = ∫ t in Set.Iic x, Real.exp (-t ^ 2) := by
  have h := integral_comp_neg_Iic x (fun t : ℝ => Real.exp (-t ^ 2))
  simp only [neg_sq] at h
  exact h.symm

theorem gauss_tail_pos (x : ℝ) : 0 < ∫ t in Set.Ioi x, Real.exp (-t ^ 2) := by
  rw [setIntegral_pos_iff_support_of_nonneg_ae]
  · have hs : Function.support (fun t : ℝ => Real.exp (-t ^ 2)) = Set.univ := by
      ext t
      simp [Function.mem_support, (Real.exp_pos _).ne.symm]
    rw [hs, Set.univ_inter]
    simp
  · exact Filter.Eventually.of_forall fun t => (Real.exp_pos _).le
  · exact gauss_integrable.integrableOn

theorem sqrt_pi_pos : 0 < Real.sqrt Real.pi := Real.sqrt_pos.mpr Real.pi_pos

theorem erfc_add_erfc_neg (x : ℝ) : erfc x + erfc (-x) = 2 := by
  unfold erfc
  rw [gauss_tail_reflect x, ← mul_add, add_comm,
    intervalIntegral.integral_Iic_add_Ioi gauss_integrable.integrableOn
      gauss_integrable.integrableOn, gauss_integral]
  exact div_mul_cancel₀ 2 sqrt_pi_pos.ne.symm

theorem erfc_pos (x : ℝ) : 0 < erfc x := by
  unfold erfc
  exact mul_pos (div_pos two_pos sqrt_pi_pos) (gauss_tail_pos x)

theorem erfc_lt_two (x : ℝ) : erfc x < 2 := by
  have h1 := erfc_add_erfc_neg x
  have h2 := erfc_pos (-x)
  linarith

namespace BlackScholes

theorem norm_cdf_add_neg (x : ℝ) : norm_cdf x + norm_cdf (-x) = 1 := by
  unfold norm_cdf
  have h := erfc_add_erfc_neg (-x * M_SQRT1_2)
  have e : -(-x) * M_SQRT1_2 = -(-x * M_SQRT1_2) := by ring
  rw [e]
  linarith

theorem norm_cdf_pos (x : ℝ) : 0 < norm_cdf x := by
  unfold norm_cdf
  have h := erfc_pos (-x * M_SQRT1_2)
  linarith

theorem norm_cdf_lt_one (x : ℝ) : norm_cdf x < 1 := by
  unfold norm_cdf
  have h := erfc_lt_two (-x * M_SQRT1_2)
  linarith

theorem norm_pdf_pos (x : ℝ) : 0 < norm_pdf x := by
  unfold norm_pdf M_PI
  exact div_pos (Real.exp_pos _) (Real.sqrt_pos.mpr (by positivity))

/-- C1. Put-call parity: for `S, K, T, sigma > 0` and every real `r`,
`call_price - put_price = S - K * exp(-r*T)`, exactly over the reals.  The
hypotheses keep every divisor of `calculate_d1` away from zero. -/
theorem put_call_parity (S K T r sigma : ℝ) (_hS : 0 < S) (_hK : 0 < K) (_hT : 0 < T)
    (_hsigma : 0 < sigma) :
    call_price S K T r sigma - put_price S K T r sigma = S - K * Real.exp (-r * T) := by
  unfold call_price put_price
  simp only []
  have h1 := norm_cdf_add_neg (calculate_d1 S K T r sigma)
  have h2 := norm_cdf_add_neg (calculate_d2 (calculate_d1 S K T r sigma) sigma T)
  linear_combination S * h1 - K * Real.exp (-r * T) * h2

theorem put_call_parity_witness :
    call_price 100 100 1 (5 / 100) (2 / 10) - put_price 100 100 1 (5 / 100) (2 / 10)
      = 100 - 100 * Real.exp (-(5 / 100) * 1) :=
  put_call_parity 100 100 1 (5 / 100) (2 / 10) (by norm_num) (by norm_num) (by norm_num)
    (by norm_num)

/-- Greeks sign bounds in exact arithmetic: over the reals, for
`S, K, T, sigma > 0` and every real `r`, the call delta lies strictly between
0 and 1, the put delta strictly between -1 and 0, and gamma and vega are
non-negative.  In binary64 the distribution function saturates at exactly 0
and 1 for large `|d1|`, which this real-valued model does not show. -/
theorem greeks_sign_bounds (S K T r sigma : ℝ) (hS : 0 < S) (_hK : 0 < K) (hT : 0 < T)
    (hsigma : 0 < sigma) :
    (0 < (calculate_greeks S K T r sigma true).delta
      ∧ (calculate_greeks S K T r sigma true).delta < 1)
    ∧ (-1 < (calculate_greeks S K T r sigma false).delta
      ∧ (calculate_greeks S K T r sigma false).delta < 0)
    ∧ ∀ is_call : Bool,
        0 ≤ (calculate_greeks S K T r sigma is_call).gamma
        ∧ 0 ≤ (calculate_greeks S K T r sigma is_call).vega := by
  have hc0 := norm_cdf_pos (calculate_d1 S K T r sigma)
  have hc1 := norm_cdf_lt_one (calculate_d1 S K T r sigma)
  have hpdf := norm_pdf_pos (calculate_d1 S K T r sigma)
  have hsq : 0 < Real.sqrt T := Real.sqrt_pos.mpr hT
  refine ⟨⟨?_, ?_⟩, ⟨?_, ?_⟩, fun is_call => ⟨?_, ?_⟩⟩
  · simpa [calculate_greeks] using hc0
  · simpa [calculate_greeks] using hc1
  · simp only [calculate_greeks, Bool.false_eq_true, if_false]
    norm_num
    exact hc0
  · simp only [calculate_greeks, Bool.false_eq_true, if_false]
    norm_num
    exact hc1
  · simp only [calculate_greeks]
    exact (div_pos hpdf (mul_pos (mul_pos hS hsigma) hsq)).le
  · simp only [calculate_greeks]
    exact (mul_pos (mul_pos hS hpdf) hsq).le

end BlackScholes

/-! ## Monte Carlo simulator -/

namespace MonteCarlo

theorem state_after_add {σ : Type} (G : Generator σ) (gen : σ) (a b : Nat) :
    state_after G (state_after G gen a) b = state_after G gen (a + b) := by
  induction b with
  | zero => rfl
  | succ b ih =>
    show (G.draw (state_after G (state_after G gen a) b)).2
      = (G.draw (state_after G gen (a + b))).2
    rw [ih]

theorem variate_state_after {σ : Type} (G : Generator σ) (gen : σ) (a l : Nat) :
    variate G (state_after G gen a) l = variate G gen (a + l) := by
  simp only [variate, state_after_add]

theorem state_after_stream (z : Nat → ℝ) (pos k : Nat) :
    state_after (stream z) pos k = pos + k := by
  induction k with
  | zero => rfl
  | succ k ih =>
    show ((stream z).draw (state_after (stream z) pos k)).2 = pos + (k + 1)
    rw [ih]
    rfl

theorem variate_stream (z : Nat → ℝ) (pos i : Nat) :
    variate (stream z) pos i = z (pos + i) := by
  unfold variate
  rw [state_after_stream]
  rfl

theorem european_divisor_natCast (N : Nat) : european_divisor (N : Int) = ((N / 2 : Nat) : Int) := by
  unfold european_divisor
  rw [Int.tdiv_eq_ediv (by omega) (by norm_num)]
  omega

/-- Loop invariant of `european_option`: after `k` rounds the accumulator
holds the sum of the first `k` pair averages and `k` variates are consumed. -/
theorem european_loop {σ : Type} (G : Generator σ) (gen : σ) (S0 K drift vol : ℝ)
    (is_call : Bool) (k : Nat) :
    loopUp (european_round G S0 K drift vol is_call) k (0.0, gen)
      = (∑ i in Finset.range k,
          (payoff is_call K (S0 * Real.exp (drift + vol * variate G gen i))
            + payoff is_call K (S0 * Real.exp (drift - vol * variate G gen i))) / 2,
        state_after G gen k) := by
  induction k with
  | zero =>
    refine Prod.ext ?_ rfl
    simp [loopUp]
    norm_num
  | succ k ih =>
    simp only [loopUp, ih, european_round, Finset.sum_range_succ, variate, state_after]
    norm_num

/-- Loop invariant of the inner loop of `asian_option`: after `m` steps `S`
is the start price times the first `m` growth factors, `avg` has grown by the
sum of the `m` simulated prices, and `m` variates are consumed. -/
theorem asian_inner_loop {σ : Type} (G : Generator σ) (gen : σ) (drift vol S0 a0 : ℝ)
    (m : Nat) :
    loopUp (asian_step G drift vol) m (S0, a0, gen)
      = (S0 * ∏ l in Finset.range m, Real.exp (drift + vol * variate G gen l),
        a0 + ∑ j in Finset.range m,
          S0 * ∏ l in Finset.range (j + 1), Real.exp (drift + vol * variate G gen l),
        state_after G gen m) := by
  induction m with
  | zero => simp [loopUp, state_after]
  | succ m ih =>
    simp only [loopUp, ih, asian_step, Finset.sum_range_succ, Finset.prod_range_succ, variate,
      state_after]
    refine Prod.ext ?_ (Prod.ext ?_ rfl)
    · simp only [mul_assoc]
    · simp only [mul_assoc, add_assoc]

/-- Loop invariant of the outer loop of `asian_option` for a step count
`M`: after `n` paths the accumulator holds the sum of the `n` payoffs of the
path averages and `n * M` variates are consumed. -/
theorem asian_outer_loop {σ : Type} (G : Generator σ) (gen : σ) (S0 K drift vol : ℝ)
    (M : Nat) (is_call : Bool) (n : Nat) :
    loopUp (asian_path G S0 K drift vol (M : Int) is_call) n (0.0, gen)
      = (∑ i in Finset.range n,
          payoff is_call K
            ((∑ j in Finset.range M,
                S0 * ∏ l in Finset.range (j + 1),
                  Real.exp (drift + vol * variate G gen (i * M + l))) / (M : ℝ)),
        state_after G gen (n * M)) := by
  induction n with
  | zero => simp [loopUp, state_after]; norm_num
  | succ n ih =>
    simp only [loopUp, ih, asian_path, Int.toNat_ofNat, asian_inner_loop, Finset.sum_range_succ,
      variate_state_after, state_after_add, Int.cast_natCast]
    refine Prod.ext ?_ ?_
    · norm_num
    · simp only [Nat.succ_mul]

/-- C3. `european_option` equals its antithetic reference definition: for
`N >= 2`, with `k = floor(N/2)`, `drift = (r - sigma^2/2)*T`,
`vol = sigma*sqrt(T)` and `Z_i` the next variates of the generator stream, the
price is `exp(-r*T) * (1/k) * sum_{i<k} (payoff(S0*exp(drift + vol*Z_i)) +
payoff(S0*exp(drift - vol*Z_i))) / 2`; the divisor is `floor(N/2)`, not `N`. -/
theorem european_option_eq_reference {σ : Type} (G : Generator σ) (gen : σ)
    (S0 K T r sigma : ℝ) (N : Nat) (_hN : 2 ≤ N) (is_call : Bool) :
    (european_option G gen S0 K T r sigma (N : Int) is_call).1
      = Real.exp (-r * T) * (1 / ((N / 2 : Nat) : ℝ))
        * ∑ i in Finset.range (N / 2),
            (payoff is_call K
                (S0 * Real.exp ((r - sigma ^ 2 / 2) * T
                  + sigma * Real.sqrt T * variate G gen i))
              + payoff is_call K
                (S0 * Real.exp ((r - sigma ^ 2 / 2) * T
                  - sigma * Real.sqrt T * variate G gen i))) / 2 := by
  have hd : (r - 0.5 * sigma * sigma) * T = (r - sigma ^ 2 / 2) * T := by
    rw [show (0.5 : ℝ) = 1 / 2 by norm_num]
    ring
  simp only [european_option, european_divisor_natCast, Int.toNat_ofNat, european_loop, hd,
    Int.cast_natCast]
  ring

theorem european_option_eq_reference_witness :
    (european_option (stream fun _ => 0) 0 100 100 1 (5 / 100) (2 / 10) ((5 : Nat) : Int) true).1
      = Real.exp (-(5 / 100) * 1) * (1 / ((5 / 2 : Nat) : ℝ))
        * ∑ i in Finset.range (5 / 2),
            (payoff true 100
                (100 * Real.exp ((5 / 100 - (2 / 10) ^ 2 / 2) * 1
                  + 2 / 10 * Real.sqrt 1 * variate (stream fun _ => 0) 0 i))
              + payoff true 100
                (100 * Real.exp ((5 / 100 - (2 / 10) ^ 2 / 2) * 1
                  - 2 / 10 * Real.sqrt 1 * variate (stream fun _ => 0) 0 i))) / 2 :=
  european_option_eq_reference (stream fun _ => 0) 0 100 100 1 (5 / 100) (2 / 10) 5
    (by decide) true

/-- C4. Odd `N` drops the unpaired slot: for every `k >= 1` and every
generator state, `european_option` with `N = 2k+1` returns the same price and
leaves the generator in the same state as with `N = 2k`. -/
theorem european_option_odd_drops_slot {σ : Type} (G : Generator σ) (gen : σ)
    (S0 K T r sigma : ℝ) (k : Int) (hk : 1 ≤ k) (is_call : Bool) :
    european_option G gen S0 K T r sigma (2 * k + 1) is_call
      = european_option G gen S0 K T r sigma (2 * k) is_call := by
  have h : european_divisor (2 * k + 1) = european_divisor (2 * k) := by
    unfold european_divisor
    rw [Int.tdiv_eq_ediv (by omega) (by norm_num), Int.tdiv_eq_ediv (by omega) (by norm_num)]
    omega
  simp only [european_option, h]

theorem european_option_odd_drops_slot_witness :
    european_option (stream fun i => (i : ℝ)) 7 100 100 1 (5 / 100) (2 / 10) (2 * 3 + 1) false
      = european_option (stream fun i => (i : ℝ)) 7 100 100 1 (5 / 100) (2 / 10) (2 * 3) false :=
  european_option_odd_drops_slot (stream fun i => (i : ℝ)) 7 100 100 1 (5 / 100) (2 / 10) 3
    (by decide) false

/-- C5. `asian_option` equals its reference definition: for `N >= 1` and
`M >= 1`, with `dt = T/M`, `drift = (r - sigma^2/2)*dt`, `vol = sigma*sqrt(dt)`
and the variates of path `i` the stream entries `i*M .. i*M + M - 1`, the
price is `exp(-r*T) * (1/N) * sum_{i<N} payoff((1/M) * sum_{j<M} S0 *
prod_{l<=j} exp(drift + vol*Z_{i,l}))`; the start price is not part of the
average and there is no antithetic pairing. -/
theorem asian_option_eq_reference {σ : Type} (G : Generator σ) (gen : σ)
    (S0 K T r sigma : ℝ) (N M : Nat) (_hN : 1 ≤ N) (_hM : 1 ≤ M) (is_call : Bool) :
    (asian_option G gen S0 K T r sigma (N : Int) (M : Int) is_call).1
      = Real.exp (-r * T) * (1 / (N : ℝ))
        * ∑ i in Finset.range N,
            payoff is_call K
              ((1 / (M : ℝ))
                * ∑ j in Finset.range M,
                    S0 * ∏ l in Finset.range (j + 1),
                      Real.exp ((r - sigma ^ 2 / 2) * (T / (M : ℝ))
                        + sigma * Real.sqrt (T / (M : ℝ)) * variate G gen (i * M + l))) := by
  have hd : (r - 0.5 * sigma * sigma) * (T / (M : ℝ)) = (r - sigma ^ 2 / 2) * (T / (M : ℝ)) := by
    rw [show (0.5 : ℝ) = 1 / 2 by norm_num]
    ring
  have hm : ∀ x : ℝ, 1 / (M : ℝ) * x = x / (M : ℝ) := fun x => by ring
  simp only [asian_option, asian_divisor, Int.toNat_ofNat, asian_outer_loop, hd,
    Int.cast_natCast, hm]
  ring

theorem asian_option_eq_reference_witness :
    (asian_option (stream fun _ => 0) 0 100 100 1 (5 / 100) (2 / 10) ((3 : Nat) : Int)
        ((4 : Nat) : Int) true).1
      = Real.exp (-(5 / 100) * 1) * (1 / ((3 : Nat) : ℝ))
        * ∑ i in Finset.range 3,
            payoff true 100
              ((1 / ((4 : Nat) : ℝ))
                * ∑ j in Finset.range 4,
                    100 * ∏ l in Finset.range (j + 1),
                      Real.exp ((5 / 100 - (2 / 10) ^ 2 / 2) * (1 / ((4 : Nat) : ℝ))
                        + 2 / 10 * Real.sqrt (1 / ((4 : Nat) : ℝ))
                          * variate (stream fun _ => 0) 0 (i * 4 + l))) :=
  asian_option_eq_reference (stream fun _ => 0) 0 100 100 1 (5 / 100) (2 / 10) 3 4
    (by decide) (by decide) true

theorem european_stream_state (z : Nat → ℝ) (pos : Nat) (S0 K T r sigma : ℝ) (N : Nat)
    (is_call : Bool) :
    (european_option (stream z) pos S0 K T r sigma (N : Int) is_call).2 = pos + N / 2 := by
  simp only [european_option, european_divisor_natCast, Int.toNat_ofNat, european_loop,
    state_after_stream]

theorem european_stream_price (z : Nat → ℝ) (pos : Nat) (S0 K T r sigma : ℝ) (N : Nat)
    (is_call : Bool) :
    (european_option (stream z) pos S0 K T r sigma (N : Int) is_call).1
      = Real.exp (-r * T)
        * (∑ i in Finset.range (N / 2),
            (payoff is_call K
                (S0 * Real.exp ((r - 0.5 * sigma * sigma) * T
                  + sigma * Real.sqrt T * z (pos + i)))
              + payoff is_call K
                (S0 * Real.exp ((r - 0.5 * sigma * sigma) * T
                  - sigma * Real.sqrt T * z (pos + i)))) / 2)
        / ((N / 2 : Nat) : ℝ) := by
  simp only [european_option, european_divisor_natCast, Int.toNat_ofNat, european_loop,
    variate_stream, Int.cast_natCast]

theorem asian_stream_state (z : Nat → ℝ) (pos : Nat) (S0 K T r sigma : ℝ) (N M : Nat)
    (is_call : Bool) :
    (asian_option (stream z) pos S0 K T r sigma (N : Int) (M : Int) is_call).2
      = pos + N * M := by
  simp only [asian_option, Int.toNat_ofNat, asian_outer_loop, state_after_stream]

theorem asian_stream_price (z : Nat → ℝ) (pos : Nat) (S0 K T r sigma : ℝ) (N M : Nat)
    (is_call : Bool) :
    (asian_option (stream z) pos S0 K T r sigma (N : Int) (M : Int) is_call).1
      = Real.exp (-r * T)
        * (∑ i in Finset.range N,
            payoff is_call K
              ((∑ j in Finset.range M,
                  S0 * ∏ l in Finset.range (j + 1),
                    Real.exp ((r - 0.5 * sigma * sigma) * (T / (M : ℝ))
                      + sigma * Real.sqrt (T / (M : ℝ)) * z (pos + (i * M + l)))) / (M : ℝ)))
        / (N : ℝ) := by
  simp only [asian_option, asian_divisor, Int.toNat_ofNat, asian_outer_loop, variate_stream,
    Int.cast_natCast]

theorem run_two {σ : Type} (G : Generator σ) (gen : σ) (c1 c2 : Call) :
    (run G [c1, c2] gen).1 = [(c1.exec G gen).1, (c2.exec G (c1.exec G gen).2).1] := rfl

/-- C8. Stream consumption, with the generator an explicit stream `z` read
from position `pos`: `european_option` with `N >= 0` moves the position by
exactly `floor(N/2)` and its price depends on no variate outside these; for
`N = 2` it reads one variate `Z = z pos` and returns
`exp(-r*T) * (payoff(S0*exp(drift+vol*Z)) + payoff(S0*exp(drift-vol*Z)))/2`;
`asian_option` with `N, M >= 0` moves the position by exactly `N*M` and its
price depends on no variate outside these; and a following call on the same
instance starts at the first unread variate. -/
theorem stream_consumption (z : Nat → ℝ) (pos : Nat) (S0 K T r sigma : ℝ) (N M : Nat)
    (is_call : Bool) :
    (european_option (stream z) pos S0 K T r sigma (N : Int) is_call).2 = pos + N / 2
    ∧ (∀ z2 : Nat → ℝ, (∀ i, i < N / 2 → z2 (pos + i) = z (pos + i)) →
        (european_option (stream z2) pos S0 K T r sigma (N : Int) is_call).1
          = (european_option (stream z) pos S0 K T r sigma (N : Int) is_call).1)
    ∧ european_option (stream z) pos S0 K T r sigma 2 is_call
        = (Real.exp (-r * T)
            * ((payoff is_call K
                  (S0 * Real.exp ((r - sigma ^ 2 / 2) * T + sigma * Real.sqrt T * z pos))
                + payoff is_call K
                  (S0 * Real.exp ((r - sigma ^ 2 / 2) * T - sigma * Real.sqrt T * z pos))) / 2),
          pos + 1)
    ∧ (asian_option (stream z) pos S0 K T r sigma (N : Int) (M : Int) is_call).2 = pos + N * M
    ∧ (∀ z2 : Nat → ℝ, (∀ i, i < N * M → z2 (pos + i) = z (pos + i)) →
        (asian_option (stream z2) pos S0 K T r sigma (N : Int) (M : Int) is_call).1
          = (asian_option (stream z) pos S0 K T r sigma (N : Int) (M : Int) is_call).1)
    ∧ ∀ c : Call,
        (run (stream z) [Call.european S0 K T r sigma (N : Int) is_call, c] pos).1
          = [(european_option (stream z) pos S0 K T r sigma (N : Int) is_call).1,
              (c.exec (stream z) (pos + N / 2)).1]
        ∧ (run (stream z) [Call.asian S0 K T r sigma (N : Int) (M : Int) is_call, c] pos).1
          = [(asian_option (stream z) pos S0 K T r sigma (N : Int) (M : Int) is_call).1,
              (c.exec (stream z) (pos + N * M)).1] := by
  refine ⟨european_stream_state z pos S0 K T r sigma N is_call, ?_, ?_,
    asian_stream_state z pos S0 K T r sigma N M is_call, ?_, ?_⟩
  · intro z2 h
    rw [european_stream_price, european_stream_price]
    have key : ∀ i ∈ Finset.range (N / 2), z2 (pos + i) = z (pos + i) :=
      fun i hi => h i (Finset.mem_range.mp hi)
    rw [Finset.sum_congr rfl fun i hi => by rw [key i hi]]
  · have h2 : european_divisor 2 = 1 := by decide
    have hd : (r - 0.5 * sigma * sigma) * T = (r - sigma ^ 2 / 2) * T := by
      rw [show (0.5 : ℝ) = 1 / 2 by norm_num]
      ring
    refine Prod.ext ?_ ?_
    · simp only [european_option, h2, hd]
      norm_num [loopUp, european_round, stream]
    · simp only [european_option, h2]
      simp [loopUp, european_round, stream]
  · intro z2 h
    rw [asian_stream_price, asian_stream_price]
    have key : ∀ i ∈ Finset.range N, ∀ j ∈ Finset.range M, ∀ l ∈ Finset.range (j + 1),
        z2 (pos + (i * M + l)) = z (pos + (i * M + l)) := by
      intro i hi j hj l hl
      have hi2 := Finset.mem_range.mp hi
      have hj2 := Finset.mem_range.mp hj
      have hl2 := Finset.mem_range.mp hl
      have hlt : i * M + l < N * M := by
        calc i * M + l < i * M + M := by omega
          _ = (i + 1) * M := by ring
          _ ≤ N * M := Nat.mul_le_mul_right M hi2
      exact h (i * M + l) hlt
    rw [Finset.sum_congr rfl fun i hi => by
      rw [Finset.sum_congr rfl fun j hj => by
        rw [Finset.prod_congr rfl fun l hl => by rw [key i hi j hj l hl]]]]
  · intro c
    refine ⟨?_, ?_⟩
    · rw [run_two]
      show [_, (c.exec (stream z)
        (european_option (stream z) pos S0 K T r sigma (N : Int) is_call).2).1] = _
      rw [european_stream_state]
      rfl
    · rw [run_two]
      show [_, (c.exec (stream z)
        (asian_option (stream z) pos S0 K T r sigma (N : Int) (M : Int) is_call).2).1] = _
      rw [asian_stream_state]
      rfl

/-- Loop invariant of the outer loop of `asian_option` for any `int` step
count `m`: the inner loop runs `m.toNat` times and the average divides by
`m`. -/
theorem asian_outer_loop_int {σ : Type} (G : Generator σ) (gen : σ) (S0 K drift vol : ℝ)
    (m : Int) (is_call : Bool) (n : Nat) :
    loopUp (asian_path G S0 K drift vol m is_call) n (0.0, gen)
      = (∑ i in Finset.range n,
          payoff is_call K
            ((∑ j in Finset.range m.toNat,
                S0 * ∏ l in Finset.range (j + 1),
                  Real.exp (drift + vol * variate G gen (i * m.toNat + l))) / (m : ℝ)),
        state_after G gen (n * m.toNat)) := by
  induction n with
  | zero => simp [loopUp, state_after]; norm_num
  | succ n ih =>
    simp only [loopUp, ih, asian_path, asian_inner_loop, Finset.sum_range_succ,
      variate_state_after, state_after_add]
    refine Prod.ext ?_ ?_
    · norm_num
    · simp only [Nat.succ_mul]

/-- The price of `european_option` and the stream it leaves behind depend on
the generator only through the variates it yields. -/
theorem european_option_stream_congr {σ τ : Type} (G : Generator σ) (H : Generator τ)
    (g : σ) (h : τ) (hstream : ∀ i, variate G g i = variate H h i) (S0 K T r sigma : ℝ)
    (n : Int) (is_call : Bool) :
    (european_option G g S0 K T r sigma n is_call).1
        = (european_option H h S0 K T r sigma n is_call).1
    ∧ ∀ i, variate G (european_option G g S0 K T r sigma n is_call).2 i
        = variate H (european_option H h S0 K T r sigma n is_call).2 i := by
  simp only [european_option, european_loop, variate_state_after, hstream]
  exact ⟨trivial, fun _ => trivial⟩

/-- The price of `asian_option` and the stream it leaves behind depend on the
generator only through the variates it yields. -/
theorem asian_option_stream_congr {σ τ : Type} (G : Generator σ) (H : Generator τ)
    (g : σ) (h : τ) (hstream : ∀ i, variate G g i = variate H h i) (S0 K T r sigma : ℝ)
    (n m : Int) (is_call : Bool) :
    (asian_option G g S0 K T r sigma n m is_call).1
        = (asian_option H h S0 K T r sigma n m is_call).1
    ∧ ∀ i, variate G (asian_option G g S0 K T r sigma n m is_call).2 i
        = variate H (asian_option H h S0 K T r sigma n m is_call).2 i := by
  simp only [asian_option, asian_outer_loop_int, variate_state_after, hstream]
  exact ⟨trivial, fun _ => trivial⟩

/-- A sequence of calls returns results, and leaves a stream, that depend on
the generator only through the variates it yields. -/
theorem run_stream_congr {σ τ : Type} (G : Generator σ) (H : Generator τ)
    (calls : List Call) (g : σ) (h : τ) (hstream : ∀ i, variate G g i = variate H h i) :
    (run G calls g).1 = (run H calls h).1
    ∧ ∀ i, variate G (run G calls g).2 i = variate H (run H calls h).2 i := by
  induction calls generalizing g h with
  | nil => exact ⟨rfl, hstream⟩
  | cons c cs ih =>
    have hc : (c.exec G g).1 = (c.exec H h).1
        ∧ ∀ i, variate G (c.exec G g).2 i = variate H (c.exec H h).2 i := by
      cases c with
      | european S0 K T r sigma n is_call =>
        exact european_option_stream_congr G H g h hstream S0 K T r sigma n is_call
      | asian S0 K T r sigma n m is_call =>
        exact asian_option_stream_congr G H g h hstream S0 K T r sigma n m is_call
    obtain ⟨h1, h2⟩ := ih (c.exec G g).2 (c.exec H h).2 hc.2
    refine ⟨?_, h2⟩
    show (c.exec G g).1 :: (run G cs (c.exec G g).2).1
      = (c.exec H h).1 :: (run H cs (c.exec H h).2).1
    rw [hc.1, h1]

/-- C9. Determinism: two simulator instances built from the same seed and
given the same sequence of `european_option` / `asian_option` calls return
identical results at every call and end in identical generator states.  The
results are moreover a function of the variate stream alone: a second
instance whose generator `H` (of whatever internal state) yields from
`seed2` the variates that `G` yields from `seed1` returns the same results
and is left with the same remaining stream. -/
theorem determinism {σ τ : Type} (G : Generator σ) (H : Generator τ) (seed1 seed2 : Nat)
    (hseed : seed1 = seed2)
    (hstream : ∀ i, variate G (init G seed1) i = variate H (init H seed2) i)
    (calls : List Call) :
    ((run G calls (init G seed1)).1 = (run G calls (init G seed2)).1
      ∧ (run G calls (init G seed1)).2 = (run G calls (init G seed2)).2)
    ∧ (run G calls (init G seed1)).1 = (run H calls (init H seed2)).1
    ∧ ∀ i, variate G (run G calls (init G seed1)).2 i
        = variate H (run H calls (init H seed2)).2 i := by
  have hrun := run_stream_congr G H calls (init G seed1) (init H seed2) hstream
  have hself := run_stream_congr G G calls (init G seed1) (init G seed2)
    (fun i => by rw [hseed])
  refine ⟨⟨hself.1, ?_⟩, hrun.1, hrun.2⟩
  rw [hseed]

theorem determinism_witness :
    ((run (stream fun i => (i : ℝ))
          [Call.european 100 100 1 (5 / 100) (2 / 10) 4 true,
            Call.asian 100 100 1 (5 / 100) (2 / 10) 2 3 false]
          (init (stream fun i => (i : ℝ)) default_seed)).1
        = (run (stream fun i => (i : ℝ))
          [Call.european 100 100 1 (5 / 100) (2 / 10) 4 true,
            Call.asian 100 100 1 (5 / 100) (2 / 10) 2 3 false]
          (init (stream fun i => (i : ℝ)) 42)).1
      ∧ (run (stream fun i => (i : ℝ))
          [Call.european 100 100 1 (5 / 100) (2 / 10) 4 true,
            Call.asian 100 100 1 (5 / 100) (2 / 10) 2 3 false]
          (init (stream fun i => (i : ℝ)) default_seed)).2
        = (run (stream fun i => (i : ℝ))
          [Call.european 100 100 1 (5 / 100) (2 / 10) 4 true,
            Call.asian 100 100 1 (5 / 100) (2 / 10) 2 3 false]
          (init (stream fun i => (i : ℝ)) 42)).2)
    ∧ (run (stream fun i => (i : ℝ))
          [Call.european 100 100 1 (5 / 100) (2 / 10) 4 true,
            Call.asian 100 100 1 (5 / 100) (2 / 10) 2 3 false]
          (init (stream fun i => (i : ℝ)) default_seed)).1
        = (run (stream fun i => ((i + 0 : Nat) : ℝ))
          [Call.european 100 100 1 (5 / 100) (2 / 10) 4 true,
            Call.asian 100 100 1 (5 / 100) (2 / 10) 2 3 false]
          (init (stream fun i => ((i + 0 : Nat) : ℝ)) 42)).1
    ∧ ∀ i, variate (stream fun i => (i : ℝ))
          (run (stream fun i => (i : ℝ))
            [Call.european 100 100 1 (5 / 100) (2 / 10) 4 true,
              Call.asian 100 100 1 (5 / 100) (2 / 10) 2 3 false]
            (init (stream fun i => (i : ℝ)) default_seed)).2 i
        = variate (stream fun i => ((i + 0 : Nat) : ℝ))
          (run (stream fun i => ((i + 0 : Nat) : ℝ))
            [Call.european 100 100 1 (5 / 100) (2 / 10) 4 true,
              Call.asian 100 100 1 (5 / 100) (2 / 10) 2 3 false]
            (init (stream fun i => ((i + 0 : Nat) : ℝ)) 42)).2 i :=
  determinism (stream fun i => (i : ℝ)) (stream fun i => ((i + 0 : Nat) : ℝ)) default_seed 42
    rfl (fun _ => rfl)
    [Call.european 100 100 1 (5 / 100) (2 / 10) 4 true,
      Call.asian 100 100 1 (5 / 100) (2 / 10) 2 3 false]

/-- C10 fails as stated: `N = -2` is not positive, yet the averaging divisor
of `european_option` is `-1` and that of `asian_option` is `-2`. -/
theorem zero_divisor_counterexample :
    (-2 : Int) ≤ 0 ∧ european_divisor (-2) = -1 ∧ asian_divisor (-2) = -2 := by
  decide

/-- C10, amended: the final averaging division of `european_option` has a
zero divisor exactly for `N` in `-1, 0, 1`, and that of `asian_option` exactly
for `N = 0`; for every other `N <= 0` the divisor is a negative integer. -/
theorem zero_divisor_iff (N : Int) :
    (european_divisor N = 0 ↔ -1 ≤ N ∧ N ≤ 1)
    ∧ (asian_divisor N = 0 ↔ N = 0)
    ∧ (N ≤ -2 → european_divisor N < 0)
    ∧ (N ≤ -1 → asian_divisor N < 0) := by
  unfold european_divisor asian_divisor
  rcases le_or_lt 0 N with h | h
  · rw [Int.tdiv_eq_ediv h (by norm_num)]
    omega
  · have e : N = -(-N) := by ring
    rw [e, Int.neg_tdiv, Int.tdiv_eq_ediv (by omega) (by norm_num)]
    omega

end MonteCarlo

/-! ## Binomial lattice -/

theorem getD_set_self (xs : List ℝ) (i : Nat) (v : ℝ) (h : i < xs.length) :
    (xs.set i v).getD i 0 = v := by
  simp [List.getD_eq_getElem?_getD, List.getElem?_set, h]

theorem getD_set_other (xs : List ℝ) (i j : Nat) (v : ℝ) (h : i ≠ j) :
    (xs.set i v).getD j 0 = xs.getD j 0 := by
  simp [List.getD_eq_getElem?_getD, List.getElem?_set, h]

theorem getD_replicate_zero (n j : Nat) : (List.replicate n (0 : ℝ)).getD j 0 = 0 := by
  simp only [List.getD_eq_getElem?_getD, List.getElem?_replicate]
  split_ifs <;> rfl

/-- A loop that stores `f i` at index `i` for `i < k` fills exactly the first
`k` entries and keeps the length. -/
theorem loopUp_set (f : Nat → ℝ) (xs : List ℝ) (k : Nat) (hk : k ≤ xs.length) :
    (loopUp (fun i l => l.set i (f i)) k xs).length = xs.length
    ∧ ∀ j, (loopUp (fun i l => l.set i (f i)) k xs).getD j 0
        = if j < k then f j else xs.getD j 0 := by
  induction k with
  | zero => exact ⟨rfl, fun j => by simp [loopUp]⟩
  | succ k ih =>
    obtain ⟨hl, hg⟩ := ih (by omega)
    refine ⟨by simp only [loopUp, List.length_set, hl], fun j => ?_⟩
    simp only [loopUp]
    by_cases hj : k = j
    · subst hj
      rw [getD_set_self _ _ _ (by omega)]
      simp
    · rw [getD_set_other _ _ _ _ hj, hg j]
      by_cases h1 : j < k
      · simp [h1, Nat.lt_succ_of_lt h1]
      · have h2 : ¬ j < k + 1 := by omega
        simp [h1, h2]

theorem loopUp_peel {α : Type} (g : Nat → α → α) (n : Nat) (s : α) :
    loopUp g (n + 1) s = loopUp (fun k => g (k + 1)) n (g 0 s) := by
  induction n with
  | zero => rfl
  | succ n ih =>
    show g (n + 1) (loopUp g (n + 1) s) = g (n + 1) (loopUp (fun k => g (k + 1)) n (g 0 s))
    rw [ih]

/-- A descending loop is the ascending loop over the mirrored index. -/
theorem loopDown_eq_loopUp {α : Type} (body : Nat → α → α) (n : Nat) (s : α) :
    loopDown body n s = loopUp (fun k => body (n - 1 - k)) n s := by
  induction n generalizing s with
  | zero => rfl
  | succ n ih =>
    rw [loopUp_peel]
    show loopDown body n (body n s) = _
    rw [ih]
    have e : (fun k => body (n - 1 - k)) = fun k => body (n + 1 - 1 - (k + 1)) := by
      funext k
      have e2 : n - 1 - k = n + 1 - 1 - (k + 1) := by omega
      rw [e2]
    rw [e]
    rfl

namespace BinomialTree

theorem u_pos (T sigma : ℝ) (n : Nat) : 0 < u T sigma n := Real.exp_pos _

theorem d_pos (T sigma : ℝ) (n : Nat) : 0 < d T sigma n := by
  unfold d
  exact div_pos (by norm_num) (u_pos T sigma n)

theorem payoff_nonneg (is_call : Bool) (K x : ℝ) : 0 ≤ payoff is_call K x := by
  unfold payoff
  split_ifs
  · exact le_max_of_le_right (by norm_num)
  · exact le_max_of_le_right (by norm_num)

theorem initial_prices_spec (S0 T sigma : ℝ) (n : Nat) :
    (initial_prices S0 T sigma n).length = n + 1
    ∧ ∀ i, i ≤ n → (initial_prices S0 T sigma n).getD i 0 = node_price S0 T sigma n n i := by
  have h := loopUp_set (fun i => S0 * u T sigma n ^ (n - i) * d T sigma n ^ i)
    (List.replicate (n + 1) 0) (n + 1) (by simp)
  refine ⟨by simpa [initial_prices] using h.1, fun i hi => ?_⟩
  have h2 := h.2 i
  rw [if_pos (by omega)] at h2
  exact h2

theorem initial_values_spec (K : ℝ) (is_call : Bool) (prices : List ℝ) (n : Nat) :
    (initial_values K is_call prices n).length = n + 1
    ∧ ∀ i, i ≤ n →
        (initial_values K is_call prices n).getD i 0 = payoff is_call K (prices.getD i 0) := by
  have h := loopUp_set (fun i => payoff is_call K (prices.getD i 0))
    (List.replicate (n + 1) 0) (n + 1) (by simp)
  refine ⟨by simpa [initial_values] using h.1, fun i hi => ?_⟩
  have h2 := h.2 i
  rw [if_pos (by omega)] at h2
  exact h2

/-- Dividing the stored price of node `i` at step `s + 1` by `u` gives the
price of node `i` at step `s`. -/
theorem node_price_div (S0 T sigma : ℝ) (n s i : Nat) (hi : i ≤ s) :
    node_price S0 T sigma n (s + 1) i / u T sigma n = node_price S0 T sigma n s i := by
  unfold node_price
  have hu := (u_pos T sigma n).ne.symm
  have e : s + 1 - i = (s - i) + 1 := by omega
  rw [e, pow_succ]
  field_simp
  ring

theorem V_maturity (S0 K T r sigma : ℝ) (n : Nat) (is_call : Bool) (i : Nat) :
    V S0 K T r sigma n is_call n i = payoff is_call K (node_price S0 T sigma n n i) := by
  unfold V
  rw [Nat.sub_self]
  rfl

theorem V_step (S0 K T r sigma : ℝ) (n : Nat) (is_call : Bool) (s i : Nat) (hs : s < n) :
    V S0 K T r sigma n is_call s i
      = max
        (discount T r n *
          (p T r sigma n * V S0 K T r sigma n is_call (s + 1) i
            + (1 - p T r sigma n) * V S0 K T r sigma n is_call (s + 1) (i + 1)))
        (payoff is_call K (node_price S0 T sigma n s i)) := by
  unfold V
  have e : n - s = (n - (s + 1)) + 1 := by omega
  rw [e]
  rfl

theorem lattice_inv_initial (S0 K T r sigma : ℝ) (n : Nat) (is_call : Bool) :
    lattice_inv S0 K T r sigma n is_call n
      (initial_prices S0 T sigma n,
        initial_values K is_call (initial_prices S0 T sigma n) n) := by
  obtain ⟨hpl, hp⟩ := initial_prices_spec S0 T sigma n
  obtain ⟨hvl, hv⟩ := initial_values_spec K is_call (initial_prices S0 T sigma n) n
  refine ⟨hpl, hvl, fun i hi => ⟨hp i hi, ?_⟩⟩
  show (initial_values K is_call (initial_prices S0 T sigma n) n).getD i 0 = _
  rw [hv i hi, hp i hi, V_maturity]

/-- One node update keeps the inner-loop invariant: the price of node `k`
becomes that of step `s`, and its value is computed from the values of the
nodes `k` and `k + 1`, both still of step `s + 1`. -/
theorem node_inv_update (S0 K T r sigma : ℝ) (n : Nat) (is_call : Bool) (s k : Nat)
    (hs : s < n) (hk : k ≤ s) (st : List ℝ × List ℝ)
    (h : node_inv S0 K T r sigma n is_call s k st) :
    node_inv S0 K T r sigma n is_call s (k + 1)
      (node_update K (u T sigma n) (p T r sigma n) (discount T r n) is_call k st) := by
  obtain ⟨hpl, hvl, hlo, hhi⟩ := h
  have hkp : k < st.1.length := by omega
  have hkv : k < st.2.length := by omega
  obtain ⟨hpk, hvk⟩ := hhi k (le_refl k) (by omega)
  obtain ⟨_, hvk1⟩ := hhi (k + 1) (by omega) (by omega)
  refine ⟨?_, ?_, ?_, ?_⟩
  · simp only [node_update, List.length_set, hpl]
  · simp only [node_update, List.length_set, hvl]
  · intro i hi
    by_cases hik : k = i
    · subst hik
      simp only [node_update]
      rw [getD_set_self _ _ _ hkp, getD_set_self _ _ _ hkv, hpk, hvk, hvk1,
        node_price_div S0 T sigma n s k hk, V_step S0 K T r sigma n is_call s k hs]
      exact ⟨rfl, rfl⟩
    · simp only [node_update]
      rw [getD_set_other _ _ _ _ hik, getD_set_other _ _ _ _ hik]
      exact hlo i (by omega)
  · intro i hi1 hi2
    have hik : k ≠ i := by omega
    simp only [node_update]
    rw [getD_set_other _ _ _ _ hik, getD_set_other _ _ _ _ hik]
    exact hhi i (by omega) hi2

theorem node_inv_loop (S0 K T r sigma : ℝ) (n : Nat) (is_call : Bool) (s : Nat)
    (hs : s < n) (st : List ℝ × List ℝ)
    (h : lattice_inv S0 K T r sigma n is_call (s + 1) st) (k : Nat) (hk : k ≤ s + 1) :
    node_inv S0 K T r sigma n is_call s k
      (loopUp (node_update K (u T sigma n) (p T r sigma n) (discount T r n) is_call) k st) := by
  induction k with
  | zero =>
    obtain ⟨hpl, hvl, hi⟩ := h
    exact ⟨hpl, hvl, fun i hi0 => absurd hi0 (Nat.not_lt_zero i), fun i _ hi2 => hi i hi2⟩
  | succ k ih =>
    exact node_inv_update S0 K T r sigma n is_call s k hs (by omega) _ (ih (by omega))

theorem lattice_inv_step (S0 K T r sigma : ℝ) (n : Nat) (is_call : Bool) (s : Nat)
    (hs : s < n) (st : List ℝ × List ℝ)
    (h : lattice_inv S0 K T r sigma n is_call (s + 1) st) :
    lattice_inv S0 K T r sigma n is_call s
      (backward_step K (u T sigma n) (p T r sigma n) (discount T r n) is_call s st) := by
  obtain ⟨hpl, hvl, hlo, _⟩ := node_inv_loop S0 K T r sigma n is_call s hs st h (s + 1)
    (le_refl _)
  exact ⟨hpl, hvl, fun i hi => hlo i (by omega)⟩

theorem lattice_inv_backward_state (S0 K T r sigma : ℝ) (n : Nat) (is_call : Bool)
    (k : Nat) (hk : k ≤ n) :
    lattice_inv S0 K T r sigma n is_call (n - k)
      (backward_state S0 K T r sigma n is_call k) := by
  induction k with
  | zero => exact lattice_inv_initial S0 K T r sigma n is_call
  | succ k ih =>
    have h := ih (by omega)
    have e : n - k = (n - 1 - k) + 1 := by omega
    rw [e] at h
    have e2 : n - (k + 1) = n - 1 - k := by omega
    rw [e2]
    exact lattice_inv_step S0 K T r sigma n is_call (n - 1 - k) (by omega) _ h

theorem american_option_eq_backward_state (S0 K T r sigma : ℝ) (n : Nat) (is_call : Bool) :
    american_option S0 K T r sigma n is_call
      = (backward_state S0 K T r sigma n is_call n).2.getD 0 0 := by
  unfold american_option backward_state
  simp only [loopDown_eq_loopUp]

/-- C6. The in-place backward induction of `american_option` equals the
recursive CRR reference: for valid input and `n >= 1` the result is `V(0,0)`,
where `V(n,i) = payoff(S0*u^(n-i)*d^i)` and, for `s < n` and `i <= s`,
`V(s,i) = max(disc*(p*V(s+1,i) + (1-p)*V(s+1,i+1)), payoff(S0*u^(s-i)*d^i))`.
In particular, once step `s` is done the stored price of node `i <= s`,
recovered by repeated division by `u`, is `S0*u^(s-i)*d^i` and the stored
value is `V(s,i)`; and when node `k` of step `s` is about to be updated,
`values[k+1]` still holds the step `s+1` value. -/
theorem american_option_eq_crr (S0 K T r sigma : ℝ) (n : Nat) (_hS : 0 < S0) (_hK : 0 < K)
    (_hT : 0 < T) (_hsigma : 0 < sigma) (_hn : 1 ≤ n) (is_call : Bool) :
    american_option S0 K T r sigma n is_call = V S0 K T r sigma n is_call 0 0
    ∧ (∀ i, V S0 K T r sigma n is_call n i
        = payoff is_call K (S0 * u T sigma n ^ (n - i) * d T sigma n ^ i))
    ∧ (∀ s i, s < n → i ≤ s →
        V S0 K T r sigma n is_call s i
          = max
            (discount T r n *
              (p T r sigma n * V S0 K T r sigma n is_call (s + 1) i
                + (1 - p T r sigma n) * V S0 K T r sigma n is_call (s + 1) (i + 1)))
            (payoff is_call K (S0 * u T sigma n ^ (s - i) * d T sigma n ^ i)))
    ∧ (∀ s i, s ≤ n → i ≤ s →
        (backward_state S0 K T r sigma n is_call (n - s)).1.getD i 0
            = S0 * u T sigma n ^ (s - i) * d T sigma n ^ i
        ∧ (backward_state S0 K T r sigma n is_call (n - s)).2.getD i 0
            = V S0 K T r sigma n is_call s i)
    ∧ ∀ s k, s < n → k ≤ s →
        (loopUp (node_update K (u T sigma n) (p T r sigma n) (discount T r n) is_call) k
            (backward_state S0 K T r sigma n is_call (n - (s + 1)))).2.getD (k + 1) 0
          = V S0 K T r sigma n is_call (s + 1) (k + 1) := by
  refine ⟨?_, fun i => V_maturity S0 K T r sigma n is_call i,
    fun s i hs _ => V_step S0 K T r sigma n is_call s i hs, ?_, ?_⟩
  · rw [american_option_eq_backward_state]
    have h := lattice_inv_backward_state S0 K T r sigma n is_call n (le_refl n)
    rw [Nat.sub_self] at h
    exact (h.2.2 0 (le_refl 0)).2
  · intro s i hs hi
    have h := lattice_inv_backward_state S0 K T r sigma n is_call (n - s) (Nat.sub_le n s)
    have e : n - (n - s) = s := by omega
    rw [e] at h
    exact h.2.2 i hi
  · intro s k hs hk
    have h := lattice_inv_backward_state S0 K T r sigma n is_call (n - (s + 1))
      (Nat.sub_le n (s + 1))
    have e : n - (n - (s + 1)) = s + 1 := by omega
    rw [e] at h
    have h2 := node_inv_loop S0 K T r sigma n is_call s hs _ h k (by omega)
    exact (h2.2.2.2 (k + 1) (by omega) (by omega)).2

theorem american_option_eq_crr_witness :
    american_option 100 100 1 (5 / 100) (2 / 10) 3 false
      = V 100 100 1 (5 / 100) (2 / 10) 3 false 0 0 :=
  (american_option_eq_crr 100 100 1 (5 / 100) (2 / 10) 3 (by norm_num) (by norm_num)
    (by norm_num) (by norm_num) (by decide) false).1

theorem payoff_call (K x : ℝ) : payoff true K x = max (x - K) 0 := by
  unfold payoff
  rw [if_pos rfl, show (0.0 : ℝ) = 0 by norm_num]

theorem dt_pos (T : ℝ) (n : Nat) (hT : 0 < T) (hn : 1 ≤ n) : 0 < dt T n := by
  unfold dt
  have : (0 : ℝ) < n := by exact_mod_cast hn
  exact div_pos hT this

theorem u_gt_one (T sigma : ℝ) (n : Nat) (hT : 0 < T) (hsigma : 0 < sigma) (hn : 1 ≤ n) :
    1 < u T sigma n := by
  unfold u
  exact Real.one_lt_exp_iff.mpr (mul_pos hsigma (Real.sqrt_pos.mpr (dt_pos T n hT hn)))

theorem d_lt_one (T sigma : ℝ) (n : Nat) (hT : 0 < T) (hsigma : 0 < sigma) (hn : 1 ≤ n) :
    d T sigma n < 1 := by
  have hu := u_gt_one T sigma n hT hsigma hn
  unfold d
  rw [show (1.0 : ℝ) = 1 by norm_num, div_lt_one (by linarith)]
  exact hu

/-- The risk-neutral weights reproduce the one-step growth:
`p*u + (1-p)*d = exp(r*dt)`. -/
theorem p_martingale (T r sigma : ℝ) (n : Nat) (hT : 0 < T) (hsigma : 0 < sigma)
    (hn : 1 ≤ n) :
    p T r sigma n * u T sigma n + (1 - p T r sigma n) * d T sigma n
      = Real.exp (r * dt T n) := by
  have hu := u_gt_one T sigma n hT hsigma hn
  have hd := d_lt_one T sigma n hT hsigma hn
  have hne : u T sigma n - d T sigma n ≠ 0 := by linarith
  have hp : p T r sigma n * (u T sigma n - d T sigma n)
      = Real.exp (r * dt T n) - d T sigma n := by
    unfold p
    exact div_mul_cancel₀ _ hne
  linear_combination hp

theorem p_nonneg (T r sigma : ℝ) (n : Nat) (hT : 0 < T) (hsigma : 0 < sigma) (hn : 1 ≤ n)
    (hr : 0 ≤ r) : 0 ≤ p T r sigma n := by
  have hu := u_gt_one T sigma n hT hsigma hn
  have hd := d_lt_one T sigma n hT hsigma hn
  have he : 1 ≤ Real.exp (r * dt T n) :=
    Real.one_le_exp (mul_nonneg hr (dt_pos T n hT hn).le)
  unfold p
  exact div_nonneg (by linarith) (by linarith)

/-- The probability is at most one when `r * sqrt(dt) <= sigma`. -/
theorem p_le_one_of_rate_le (T r sigma : ℝ) (n : Nat) (hT : 0 < T) (hsigma : 0 < sigma)
    (hn : 1 ≤ n) (h : r * Real.sqrt (dt T n) ≤ sigma) : p T r sigma n ≤ 1 := by
  have hu := u_gt_one T sigma n hT hsigma hn
  have hd := d_lt_one T sigma n hT hsigma hn
  have hdt := dt_pos T n hT hn
  have hs : 0 < Real.sqrt (dt T n) := Real.sqrt_pos.mpr hdt
  have he : Real.exp (r * dt T n) ≤ u T sigma n := by
    unfold u
    apply Real.exp_le_exp.mpr
    calc r * dt T n = r * Real.sqrt (dt T n) * Real.sqrt (dt T n) := by
          rw [mul_assoc, Real.mul_self_sqrt hdt.le]
      _ ≤ sigma * Real.sqrt (dt T n) := mul_le_mul_of_nonneg_right h hs.le
  unfold p
  rw [div_le_one (by linarith)]
  linarith

theorem discount_pos (T r : ℝ) (n : Nat) : 0 < discount T r n := Real.exp_pos _

theorem discount_le_one (T r : ℝ) (n : Nat) (hT : 0 < T) (hn : 1 ≤ n) (hr : 0 ≤ r) :
    discount T r n ≤ 1 := by
  unfold discount
  apply Real.exp_le_one_iff.mpr
  have := mul_nonneg hr (dt_pos T n hT hn).le
  linarith

theorem discount_mul_growth (T r : ℝ) (n : Nat) :
    discount T r n * Real.exp (r * dt T n) = 1 := by
  unfold discount
  rw [← Real.exp_add]
  simp

theorem node_price_up (S0 T sigma : ℝ) (n s i : Nat) (hi : i ≤ s) :
    node_price S0 T sigma n (s + 1) i = node_price S0 T sigma n s i * u T sigma n := by
  have h := node_price_div S0 T sigma n s i hi
  have hu := (u_pos T sigma n).ne.symm
  rw [← h]
  field_simp

theorem node_price_down (S0 T sigma : ℝ) (n s i : Nat) :
    node_price S0 T sigma n (s + 1) (i + 1) = node_price S0 T sigma n s i * d T sigma n := by
  unfold node_price
  rw [Nat.add_sub_add_right, pow_succ]
  ring

/-- The reference value dominates the immediate payoff at every node. -/
theorem V_ge_payoff (S0 K T r sigma : ℝ) (n : Nat) (is_call : Bool) (s i : Nat) (hs : s ≤ n) :
    payoff is_call K (node_price S0 T sigma n s i) ≤ V S0 K T r sigma n is_call s i := by
  rcases Nat.lt_or_ge s n with h | h
  · rw [V_step S0 K T r sigma n is_call s i h]
    exact le_max_right _ _
  · have e : s = n := le_antisymm hs h
    subst e
    rw [V_maturity]

/-- For a call with `r >= 0` and `0 <= p <= 1`, holding is worth at least
exercising at every node of the reference lattice. -/
theorem call_continuation_ge (S0 K T r sigma : ℝ) (n : Nat) (hK : 0 < K) (hT : 0 < T)
    (hsigma : 0 < sigma) (hn : 1 ≤ n) (hr : 0 ≤ r) (hp : p T r sigma n ≤ 1) (s i : Nat)
    (hs : s < n) (hi : i ≤ s) :
    payoff true K (node_price S0 T sigma n s i)
      ≤ discount T r n *
        (p T r sigma n * V S0 K T r sigma n true (s + 1) i
          + (1 - p T r sigma n) * V S0 K T r sigma n true (s + 1) (i + 1)) := by
  have hA := V_ge_payoff S0 K T r sigma n true (s + 1) i (by omega)
  have hB := V_ge_payoff S0 K T r sigma n true (s + 1) (i + 1) (by omega)
  rw [payoff_call, node_price_up S0 T sigma n s i hi] at hA
  rw [payoff_call, node_price_down] at hB
  have hA1 := le_trans (le_max_left _ _) hA
  have hA0 := le_trans (le_max_right _ _) hA
  have hB1 := le_trans (le_max_left _ _) hB
  have hB0 := le_trans (le_max_right _ _) hB
  have hp0 := p_nonneg T r sigma n hT hsigma hn hr
  have hq0 : 0 ≤ 1 - p T r sigma n := by linarith
  have hdisc := discount_pos T r n
  have hdisc1 := discount_le_one T r n hT hn hr
  have hmart := p_martingale T r sigma n hT hsigma hn
  have hgrow := discount_mul_growth T r n
  rw [payoff_call]
  refine max_le ?_ ?_
  · have h1 : p T r sigma n * (node_price S0 T sigma n s i * u T sigma n - K)
        + (1 - p T r sigma n) * (node_price S0 T sigma n s i * d T sigma n - K)
        ≤ p T r sigma n * V S0 K T r sigma n true (s + 1) i
          + (1 - p T r sigma n) * V S0 K T r sigma n true (s + 1) (i + 1) :=
      add_le_add (mul_le_mul_of_nonneg_left hA1 hp0) (mul_le_mul_of_nonneg_left hB1 hq0)
    have h2 := mul_le_mul_of_nonneg_left h1 hdisc.le
    have h3 : discount T r n *
        (p T r sigma n * (node_price S0 T sigma n s i * u T sigma n - K)
          + (1 - p T r sigma n) * (node_price S0 T sigma n s i * d T sigma n - K))
        = node_price S0 T sigma n s i - K * discount T r n := by
      linear_combination
        discount T r n * node_price S0 T sigma n s i * hmart
          + node_price S0 T sigma n s i * hgrow
    rw [h3] at h2
    have h4 : K * discount T r n ≤ K := by
      have := mul_le_mul_of_nonneg_left hdisc1 hK.le
      linarith
    linarith
  · exact mul_nonneg hdisc.le
      (add_nonneg (mul_nonneg hp0 hA0) (mul_nonneg hq0 hB0))

/-- In a state that satisfies the inner-loop invariant of a call, the
exercise value computed by the code at node `k` is at most the continuation
value it computes there. -/
theorem call_exercise_le_continuation (S0 K T r sigma : ℝ) (n : Nat) (hK : 0 < K)
    (hT : 0 < T) (hsigma : 0 < sigma) (hn : 1 ≤ n) (hr : 0 ≤ r) (hp : p T r sigma n ≤ 1)
    (s k : Nat) (hs : s < n) (hk : k ≤ s) (st : List ℝ × List ℝ)
    (h : node_inv S0 K T r sigma n true s k st) :
    payoff true K (st.1.getD k 0 / u T sigma n)
      ≤ discount T r n *
        (p T r sigma n * st.2.getD k 0 + (1 - p T r sigma n) * st.2.getD (k + 1) 0) := by
  obtain ⟨_, _, _, hhi⟩ := h
  obtain ⟨hpk, hvk⟩ := hhi k (le_refl k) (by omega)
  obtain ⟨_, hvk1⟩ := hhi (k + 1) (by omega) (by omega)
  rw [hpk, hvk, hvk1, node_price_div S0 T sigma n s k hk]
  exact call_continuation_ge S0 K T r sigma n hK hT hsigma hn hr hp s k hs hk

theorem node_update_european_eq (S0 K T r sigma : ℝ) (n : Nat) (hK : 0 < K)
    (hT : 0 < T) (hsigma : 0 < sigma) (hn : 1 ≤ n) (hr : 0 ≤ r) (hp : p T r sigma n ≤ 1)
    (s k : Nat) (hs : s < n) (hk : k ≤ s) (st : List ℝ × List ℝ)
    (h : node_inv S0 K T r sigma n true s k st) :
    node_update_european (u T sigma n) (p T r sigma n) (discount T r n) k st
      = node_update K (u T sigma n) (p T r sigma n) (discount T r n) true k st := by
  have hle := call_exercise_le_continuation S0 K T r sigma n hK hT hsigma hn hr hp s k hs hk
    st h
  have hkp : k < st.1.length := by
    rw [h.1]
    omega
  simp only [node_update_european, node_update]
  rw [getD_set_self _ _ _ hkp, max_eq_left hle]

theorem european_inner_eq (S0 K T r sigma : ℝ) (n : Nat) (hK : 0 < K)
    (hT : 0 < T) (hsigma : 0 < sigma) (hn : 1 ≤ n) (hr : 0 ≤ r) (hp : p T r sigma n ≤ 1)
    (s : Nat) (hs : s < n) (st : List ℝ × List ℝ)
    (h : lattice_inv S0 K T r sigma n true (s + 1) st) (k : Nat) (hk : k ≤ s + 1) :
    loopUp (node_update_european (u T sigma n) (p T r sigma n) (discount T r n)) k st
      = loopUp (node_update K (u T sigma n) (p T r sigma n) (discount T r n) true) k st := by
  induction k with
  | zero => rfl
  | succ k ih =>
    show node_update_european _ _ _ k (loopUp _ k st) = node_update K _ _ _ true k (loopUp _ k st)
    rw [ih (by omega)]
    exact node_update_european_eq S0 K T r sigma n hK hT hsigma hn hr hp s k hs (by omega) _
      (node_inv_loop S0 K T r sigma n true s hs st h k (by omega))

theorem european_outer_eq (S0 K T r sigma : ℝ) (n : Nat) (hK : 0 < K)
    (hT : 0 < T) (hsigma : 0 < sigma) (hn : 1 ≤ n) (hr : 0 ≤ r) (hp : p T r sigma n ≤ 1)
    (s : Nat) (hs : s ≤ n) (st : List ℝ × List ℝ)
    (h : lattice_inv S0 K T r sigma n true s st) :
    loopDown
        (fun step =>
          loopUp (node_update_european (u T sigma n) (p T r sigma n) (discount T r n))
            (step + 1))
        s st
      = loopDown
        (backward_step K (u T sigma n) (p T r sigma n) (discount T r n) true) s st := by
  induction s generalizing st with
  | zero => rfl
  | succ s ih =>
    show loopDown _ s (loopUp _ (s + 1) st) = loopDown _ s (backward_step K _ _ _ true s st)
    rw [european_inner_eq S0 K T r sigma n hK hT hsigma hn hr hp s (by omega) st h (s + 1)
      (le_refl _)]
    exact ih (by omega) _ (lattice_inv_step S0 K T r sigma n true s (by omega) st h)

/-- C7 fails as stated: with `S0 = 3`, `K = 1`, `T = 1`, `sigma = 1`, `r = -1`
and one step, all valid, the probability is `p = 0`, the American call is
exercised at the root and is worth `2`, while the European value on the same
lattice is below `2`. -/
theorem american_call_early_exercise_counterexample :
    p 1 (-1) 1 1 = 0
    ∧ american_option 3 1 1 (-1) 1 1 true = 2
    ∧ european_lattice 3 1 1 (-1) 1 1 true < 2 := by
  have hdt : dt 1 1 = 1 := by norm_num [dt]
  have hu : u 1 1 1 = Real.exp 1 := by
    unfold u
    rw [hdt]
    norm_num
  have hd : d 1 1 1 = (Real.exp 1)⁻¹ := by
    unfold d
    rw [hu]
    norm_num
  have hp : p 1 (-1) 1 1 = 0 := by
    unfold p
    rw [hd, hdt]
    norm_num [Real.exp_neg]
  have hdisc : discount 1 (-1) 1 = Real.exp 1 := by
    unfold discount
    rw [hdt]
    norm_num
  have he : (1 : ℝ) < Real.exp 1 := Real.one_lt_exp_iff.mpr one_pos
  have he0 : (0 : ℝ) < Real.exp 1 := Real.exp_pos 1
  have hcont : Real.exp 1 * max (3 * (Real.exp 1)⁻¹ - 1) 0 < 2 := by
    rcases le_total (3 * (Real.exp 1)⁻¹ - 1) 0 with h | h
    · rw [max_eq_right h]
      norm_num
    · rw [max_eq_left h, mul_sub, ← mul_assoc, mul_comm (Real.exp 1) 3, mul_assoc,
        mul_inv_cancel₀ he0.ne.symm]
      linarith
  have hA : american_option 3 1 1 (-1) 1 1 true
      = max (Real.exp 1 * max (3 * (Real.exp 1)⁻¹ - 1) 0) 2 := by
    simp only [american_option, loopDown, backward_step, loopUp, node_update, initial_prices,
      initial_values, hu, hd, hp, hdisc, payoff_call]
    norm_num [List.replicate, List.set, List.getD, he0.ne.symm]
  have hE : european_lattice 3 1 1 (-1) 1 1 true
      = Real.exp 1 * max (3 * (Real.exp 1)⁻¹ - 1) 0 := by
    simp only [european_lattice, loopDown, loopUp, node_update_european, initial_prices,
      initial_values, hu, hd, hp, hdisc, payoff_call]
    norm_num [List.replicate, List.set, List.getD]
  refine ⟨hp, ?_, ?_⟩
  · rw [hA]
    exact max_eq_right hcont.le
  · rw [hE]
    exact hcont

/-- The bound `p <= 1` cannot be dropped from the amended C7: with
`u = 5/4`, growth `exp(r*dt) = 4` (so `r > 0` and `p = 64/9`), three steps,
`S0 = 4` and `K = 3`, the American call is worth its immediate exercise value
`1` while the European value on the same lattice is `407/729`. -/
theorem american_call_early_exercise_high_rate :
    0 < Real.log 4
    ∧ p 3 (Real.log 4) (Real.log (5 / 4)) 3 = 64 / 9
    ∧ american_option 4 3 3 (Real.log 4) (Real.log (5 / 4)) 3 true = 1
    ∧ european_lattice 4 3 3 (Real.log 4) (Real.log (5 / 4)) 3 true = 407 / 729 := by
  have hdt : dt 3 3 = 1 := by norm_num [dt]
  have hu : u 3 (Real.log (5 / 4)) 3 = 5 / 4 := by
    unfold u
    rw [hdt, Real.sqrt_one, mul_one, Real.exp_log (by norm_num)]
  have hd : d 3 (Real.log (5 / 4)) 3 = 4 / 5 := by
    unfold d
    rw [hu]
    norm_num
  have hp : p 3 (Real.log 4) (Real.log (5 / 4)) 3 = 64 / 9 := by
    unfold p
    rw [hd, hu, hdt, mul_one, Real.exp_log (by norm_num)]
    norm_num
  have hdisc : discount 3 (Real.log 4) 3 = 1 / 4 := by
    unfold discount
    rw [hdt, mul_one, Real.exp_neg, Real.exp_log (by norm_num)]
    norm_num
  refine ⟨Real.log_pos (by norm_num), hp, ?_, ?_⟩
  · simp only [american_option, loopDown, backward_step, loopUp, node_update, initial_prices,
      initial_values, hu, hd, hp, hdisc, payoff_call]
    norm_num [List.replicate, List.set, List.getD, max_def]
  · simp only [european_lattice, loopDown, loopUp, node_update_european, initial_prices,
      initial_values, hu, hd, hp, hdisc, payoff_call]
    norm_num [List.replicate, List.set, List.getD, max_def]

/-- C7, amended: for valid parameters, `n_steps >= 1`, a rate `r >= 0` and a
probability `p <= 1`, at every node visited by `american_option` with
`is_call = true` the continuation value computed by the code is at least the
exercise value it computes, and the result equals the European value on the
same lattice. -/
theorem american_call_no_early_exercise (S0 K T r sigma : ℝ) (n : Nat) (_hS : 0 < S0)
    (hK : 0 < K) (hT : 0 < T) (hsigma : 0 < sigma) (hn : 1 ≤ n) (hr : 0 ≤ r)
    (hp : p T r sigma n ≤ 1) :
    (∀ s k, s < n → k ≤ s →
      payoff true K
          ((loopUp (node_update K (u T sigma n) (p T r sigma n) (discount T r n) true) k
              (backward_state S0 K T r sigma n true (n - (s + 1)))).1.getD k 0 / u T sigma n)
        ≤ discount T r n *
          (p T r sigma n
              * (loopUp (node_update K (u T sigma n) (p T r sigma n) (discount T r n) true) k
                  (backward_state S0 K T r sigma n true (n - (s + 1)))).2.getD k 0
            + (1 - p T r sigma n)
              * (loopUp (node_update K (u T sigma n) (p T r sigma n) (discount T r n) true) k
                  (backward_state S0 K T r sigma n true (n - (s + 1)))).2.getD (k + 1) 0))
    ∧ american_option S0 K T r sigma n true = european_lattice S0 K T r sigma n true := by
  refine ⟨?_, ?_⟩
  · intro s k hs hk
    have h := lattice_inv_backward_state S0 K T r sigma n true (n - (s + 1))
      (Nat.sub_le n (s + 1))
    have e : n - (n - (s + 1)) = s + 1 := by omega
    rw [e] at h
    exact call_exercise_le_continuation S0 K T r sigma n hK hT hsigma hn hr hp s k hs hk _
      (node_inv_loop S0 K T r sigma n true s hs _ h k (by omega))
  · unfold american_option european_lattice
    simp only []
    rw [european_outer_eq S0 K T r sigma n hK hT hsigma hn hr hp n (le_refl n) _
      (lattice_inv_initial S0 K T r sigma n true)]

theorem american_call_no_early_exercise_witness :
    american_option 100 100 1 (5 / 100) (2 / 10) 3 true
      = european_lattice 100 100 1 (5 / 100) (2 / 10) 3 true :=
  (american_call_no_early_exercise 100 100 1 (5 / 100) (2 / 10) 3 (by norm_num) (by norm_num)
    (by norm_num) (by norm_num) (by decide) (by norm_num)
    (p_le_one_of_rate_le 1 (5 / 100) (2 / 10) 3 (by norm_num) (by norm_num) (by decide)
      (by
        have h1 : Real.sqrt (dt 1 3) ≤ 1 :=
          Real.sqrt_le_iff.mpr ⟨by norm_num, by norm_num [dt]⟩
        have h0 : 0 ≤ Real.sqrt (dt 1 3) := Real.sqrt_nonneg _
        linarith))).2

end BinomialTree

namespace BlackScholes

/-- C19. The Greeks satisfy the differentiated put-call parity: for
`S, K, T, sigma > 0` and every real `r`, with `c` the call Greeks and `q` the
put Greeks, `c.gamma = q.gamma`, `c.vega = q.vega`, `c.delta - q.delta = 1`,
`c.rho - q.rho = K*T*exp(-r*T)` and `c.theta - q.theta = -r*K*exp(-r*T)`. -/
theorem greeks_parity (S K T r sigma : ℝ) (_hS : 0 < S) (_hK : 0 < K) (_hT : 0 < T)
    (_hsigma : 0 < sigma) :
    (calculate_greeks S K T r sigma true).gamma = (calculate_greeks S K T r sigma false).gamma
    ∧ (calculate_greeks S K T r sigma true).vega = (calculate_greeks S K T r sigma false).vega
    ∧ (calculate_greeks S K T r sigma true).delta
        - (calculate_greeks S K T r sigma false).delta = 1
    ∧ (calculate_greeks S K T r sigma true).rho - (calculate_greeks S K T r sigma false).rho
        = K * T * Real.exp (-r * T)
    ∧ (calculate_greeks S K T r sigma true).theta
        - (calculate_greeks S K T r sigma false).theta
        = -r * K * Real.exp (-r * T) := by
  have h2 := norm_cdf_add_neg (calculate_d2 (calculate_d1 S K T r sigma) sigma T)
  refine ⟨rfl, rfl, ?_, ?_, ?_⟩
  · simp only [calculate_greeks, if_true, Bool.false_eq_true, if_false]
    norm_num
  · simp only [calculate_greeks, if_true, Bool.false_eq_true, if_false]
    linear_combination K * T * Real.exp (-r * T) * h2
  · simp only [calculate_greeks, if_true, Bool.false_eq_true, if_false]
    linear_combination -r * K * Real.exp (-r * T) * h2

theorem greeks_parity_witness :
    (calculate_greeks 100 100 1 (5 / 100) (2 / 10) true).gamma
      = (calculate_greeks 100 100 1 (5 / 100) (2 / 10) false).gamma
    ∧ (calculate_greeks 100 100 1 (5 / 100) (2 / 10) true).vega
      = (calculate_greeks 100 100 1 (5 / 100) (2 / 10) false).vega
    ∧ (calculate_greeks 100 100 1 (5 / 100) (2 / 10) true).delta
        - (calculate_greeks 100 100 1 (5 / 100) (2 / 10) false).delta = 1
    ∧ (calculate_greeks 100 100 1 (5 / 100) (2 / 10) true).rho
        - (calculate_greeks 100 100 1 (5 / 100) (2 / 10) false).rho
        = 100 * 1 * Real.exp (-(5 / 100) * 1)
    ∧ (calculate_greeks 100 100 1 (5 / 100) (2 / 10) true).theta
        - (calculate_greeks 100 100 1 (5 / 100) (2 / 10) false).theta
        = -(5 / 100) * 100 * Real.exp (-(5 / 100) * 1) :=
  greeks_parity 100 100 1 (5 / 100) (2 / 10) (by norm_num) (by norm_num) (by norm_num)
    (by norm_num)

end BlackScholes

namespace MonteCarlo

/-- C13 fails as stated: `N = 1` is positive, yet the averaging divisor
`n_simulations / 2` of `european_option` is zero. -/
theorem averaging_divisor_counterexample : (0 : Int) < 1 ∧ european_divisor 1 = 0 := by
  decide

/-- C13, amended: for `N > 0` the divisor `n_simulations / 2` of
`european_option` is non-zero exactly when `N >= 2`, and for `N > 0` and
`M > 0` the divisors `n_simulations` and `n_steps` of `asian_option` are
non-zero, as integers and as the reals the code divides by. -/
theorem averaging_divisors (N M : Int) (hN : 0 < N) (hM : 0 < M) :
    (european_divisor N ≠ 0 ↔ 2 ≤ N)
    ∧ (2 ≤ N → ((european_divisor N : Int) : ℝ) ≠ 0)
    ∧ asian_divisor N ≠ 0
    ∧ ((asian_divisor N : Int) : ℝ) ≠ 0
    ∧ M ≠ 0
    ∧ (M : ℝ) ≠ 0 := by
  have hE : european_divisor N ≠ 0 ↔ 2 ≤ N := by
    unfold european_divisor
    rw [Int.tdiv_eq_ediv hN.le (by norm_num)]
    omega
  have hA : asian_divisor N ≠ 0 := by
    unfold asian_divisor
    omega
  refine ⟨hE, fun h => ?_, hA, ?_, by omega, ?_⟩
  · exact_mod_cast hE.mpr h
  · exact_mod_cast hA
  · exact_mod_cast hM.ne.symm

theorem averaging_divisors_witness :
    (european_divisor 2 ≠ 0 ↔ (2 : Int) ≤ 2)
    ∧ ((2 : Int) ≤ 2 → ((european_divisor 2 : Int) : ℝ) ≠ 0)
    ∧ asian_divisor 2 ≠ 0
    ∧ ((asian_divisor 2 : Int) : ℝ) ≠ 0
    ∧ (1 : Int) ≠ 0
    ∧ ((1 : Int) : ℝ) ≠ 0 :=
  averaging_divisors 2 1 (by decide) (by decide)

theorem sum_payoff_nonneg (is_call : Bool) (K : ℝ) (n : Nat) (f : Nat → ℝ) :
    0 ≤ ∑ i in Finset.range n, payoff is_call K (f i) := by
  refine Finset.sum_nonneg fun i _ => ?_
  unfold payoff
  split_ifs
  · exact le_max_of_le_right (by norm_num)
  · exact le_max_of_le_right (by norm_num)

end MonteCarlo

namespace BinomialTree

theorem d_eq_exp_neg (T sigma : ℝ) (n : Nat) :
    d T sigma n = Real.exp (-(sigma * Real.sqrt (dt T n))) := by
  unfold d u
  rw [Real.exp_neg, show (1.0 : ℝ) = 1 by norm_num, one_div]

theorem p_le_one_iff (T r sigma : ℝ) (n : Nat) (hT : 0 < T) (hsigma : 0 < sigma)
    (hn : 1 ≤ n) : p T r sigma n ≤ 1 ↔ r * Real.sqrt (dt T n) ≤ sigma := by
  have hu := u_gt_one T sigma n hT hsigma hn
  have hd := d_lt_one T sigma n hT hsigma hn
  have hdt := dt_pos T n hT hn
  have hs : 0 < Real.sqrt (dt T n) := Real.sqrt_pos.mpr hdt
  have hsq : r * dt T n = r * Real.sqrt (dt T n) * Real.sqrt (dt T n) := by
    rw [mul_assoc, Real.mul_self_sqrt hdt.le]
  have h1 : p T r sigma n ≤ 1 ↔ Real.exp (r * dt T n) ≤ u T sigma n := by
    unfold p
    rw [div_le_one (by linarith)]
    constructor <;> intro h <;> linarith
  rw [h1]
  unfold u
  rw [Real.exp_le_exp, hsq]
  exact mul_le_mul_right hs

theorem p_nonneg_iff (T r sigma : ℝ) (n : Nat) (hT : 0 < T) (hsigma : 0 < sigma)
    (hn : 1 ≤ n) : 0 ≤ p T r sigma n ↔ -sigma ≤ r * Real.sqrt (dt T n) := by
  have hu := u_gt_one T sigma n hT hsigma hn
  have hd := d_lt_one T sigma n hT hsigma hn
  have hdt := dt_pos T n hT hn
  have hs : 0 < Real.sqrt (dt T n) := Real.sqrt_pos.mpr hdt
  have hsq : r * dt T n = r * Real.sqrt (dt T n) * Real.sqrt (dt T n) := by
    rw [mul_assoc, Real.mul_self_sqrt hdt.le]
  have h1 : 0 ≤ p T r sigma n ↔ d T sigma n ≤ Real.exp (r * dt T n) := by
    unfold p
    rw [div_nonneg_iff]
    constructor
    · rintro (⟨h, _⟩ | ⟨_, h⟩)
      · linarith
      · linarith
    · intro h
      exact Or.inl ⟨by linarith, by linarith⟩
  rw [h1, d_eq_exp_neg, Real.exp_le_exp, hsq, ← neg_mul]
  exact mul_le_mul_right hs

/-- C14. The lattice probability is a probability exactly when the rate is
small relative to volatility: for `T > 0`, `sigma > 0`, `n >= 1` and real `r`,
`0 <= p <= 1` if and only if `|r| * sqrt(dt) <= sigma`; and there are valid
inputs with `p > 1` and valid inputs with `p < 0`. -/
theorem p_probability_iff (T r sigma : ℝ) (n : Nat) (hT : 0 < T) (hsigma : 0 < sigma)
    (hn : 1 ≤ n) :
    ((0 ≤ p T r sigma n ∧ p T r sigma n ≤ 1) ↔ |r| * Real.sqrt (dt T n) ≤ sigma)
    ∧ (∃ (T2 r2 sigma2 : ℝ) (n2 : Nat),
        0 < T2 ∧ 0 < sigma2 ∧ 1 ≤ n2 ∧ 1 < p T2 r2 sigma2 n2)
    ∧ ∃ (T2 r2 sigma2 : ℝ) (n2 : Nat),
        0 < T2 ∧ 0 < sigma2 ∧ 1 ≤ n2 ∧ p T2 r2 sigma2 n2 < 0 := by
  have hone : Real.sqrt (dt 1 1) = 1 := by
    rw [show dt 1 1 = 1 by norm_num [dt], Real.sqrt_one]
  refine ⟨?_, ⟨1, 2, 1, 1, one_pos, one_pos, le_refl 1, ?_⟩,
    ⟨1, -2, 1, 1, one_pos, one_pos, le_refl 1, ?_⟩⟩
  · have hs : 0 ≤ Real.sqrt (dt T n) := Real.sqrt_nonneg _
    rw [p_nonneg_iff T r sigma n hT hsigma hn, p_le_one_iff T r sigma n hT hsigma hn,
      ← abs_of_nonneg hs, ← abs_mul, abs_le, abs_of_nonneg hs]
  · have h := p_le_one_iff 1 2 1 1 one_pos one_pos (le_refl 1)
    rw [hone] at h
    by_contra hc
    have := h.mp (not_lt.mp hc)
    norm_num at this
  · have h := p_nonneg_iff 1 (-2) 1 1 one_pos one_pos (le_refl 1)
    rw [hone] at h
    by_contra hc
    have := h.mp (not_lt.mp hc)
    norm_num at this

theorem p_probability_iff_witness :
    ((0 ≤ p 1 (5 / 100) (2 / 10) 3 ∧ p 1 (5 / 100) (2 / 10) 3 ≤ 1)
      ↔ |(5 / 100 : ℝ)| * Real.sqrt (dt 1 3) ≤ 2 / 10)
    ∧ (∃ (T2 r2 sigma2 : ℝ) (n2 : Nat),
        0 < T2 ∧ 0 < sigma2 ∧ 1 ≤ n2 ∧ 1 < p T2 r2 sigma2 n2)
    ∧ ∃ (T2 r2 sigma2 : ℝ) (n2 : Nat),
        0 < T2 ∧ 0 < sigma2 ∧ 1 ≤ n2 ∧ p T2 r2 sigma2 n2 < 0 :=
  p_probability_iff 1 (5 / 100) (2 / 10) 3 (by norm_num) (by norm_num) (by decide)

theorem american_option_eq_V (S0 K T r sigma : ℝ) (n : Nat) (is_call : Bool) :
    american_option S0 K T r sigma n is_call = V S0 K T r sigma n is_call 0 0 := by
  rw [american_option_eq_backward_state]
  have h := lattice_inv_backward_state S0 K T r sigma n is_call n (le_refl n)
  rw [Nat.sub_self] at h
  exact (h.2.2 0 (le_refl 0)).2

theorem node_price_root (S0 T sigma : ℝ) (n : Nat) : node_price S0 T sigma n 0 0 = S0 := by
  simp [node_price]

/-- Root exercise bound in exact arithmetic: over the reals, for valid
parameters and `n_steps >= 1`, `american_option` returns at least
`max(S0 - K, 0)` for calls and at least `max(K - S0, 0)` for puts, and after
the `n_steps` rounds of division by `u` the price stored at node 0 is `S0`.
In binary64 each division rounds, so the stored root price can differ from
`S0`, which this real-valued model does not show. -/
theorem american_option_ge_exercise (S0 K T r sigma : ℝ) (n : Nat) (_hS : 0 < S0)
    (_hK : 0 < K) (_hT : 0 < T) (_hsigma : 0 < sigma) (_hn : 1 ≤ n) :
    max (S0 - K) 0 ≤ american_option S0 K T r sigma n true
    ∧ max (K - S0) 0 ≤ american_option S0 K T r sigma n false
    ∧ ∀ is_call : Bool, (backward_state S0 K T r sigma n is_call n).1.getD 0 0 = S0 := by
  have key : ∀ is_call : Bool,
      payoff is_call K S0 ≤ american_option S0 K T r sigma n is_call := by
    intro is_call
    have h := V_ge_payoff S0 K T r sigma n is_call 0 0 (Nat.zero_le n)
    rw [node_price_root] at h
    rw [american_option_eq_V]
    exact h
  refine ⟨?_, ?_, fun is_call => ?_⟩
  · have h := key true
    rwa [payoff_call] at h
  · have h := key false
    unfold payoff at h
    rwa [if_neg (by decide), show (0.0 : ℝ) = 0 by norm_num] at h
  · have h := lattice_inv_backward_state S0 K T r sigma n is_call n (le_refl n)
    rw [Nat.sub_self] at h
    rw [(h.2.2 0 (le_refl 0)).1, node_price_root]

end BinomialTree

namespace BinomialTree

/-- One node update keeps the American vectors above the European ones:
equal prices, equal lengths, and every American value at least the European
value at the same index. -/
theorem node_update_dominates (K up prob disc : ℝ) (is_call : Bool) (hp0 : 0 ≤ prob)
    (hp1 : prob ≤ 1) (hdisc : 0 ≤ disc) (k : Nat) (a e : List ℝ × List ℝ)
    (h : a.1 = e.1 ∧ a.2.length = e.2.length ∧ ∀ i, e.2.getD i 0 ≤ a.2.getD i 0) :
    (node_update K up prob disc is_call k a).1 = (node_update_european up prob disc k e).1
    ∧ (node_update K up prob disc is_call k a).2.length
        = (node_update_european up prob disc k e).2.length
    ∧ ∀ i, (node_update_european up prob disc k e).2.getD i 0
        ≤ (node_update K up prob disc is_call k a).2.getD i 0 := by
  obtain ⟨h1, h2, h3⟩ := h
  refine ⟨?_, ?_, fun i => ?_⟩
  · simp only [node_update, node_update_european, h1]
  · simp only [node_update, node_update_european, List.length_set, h2]
  · simp only [node_update, node_update_european]
    by_cases hik : k = i
    · subst hik
      by_cases hk : k < e.2.length
      · rw [getD_set_self _ _ _ hk, getD_set_self _ _ _ (by omega)]
        have hq : 0 ≤ 1 - prob := by linarith
        have hc : disc * (prob * e.2.getD k 0 + (1 - prob) * e.2.getD (k + 1) 0)
            ≤ disc * (prob * a.2.getD k 0 + (1 - prob) * a.2.getD (k + 1) 0) :=
          mul_le_mul_of_nonneg_left
            (add_le_add (mul_le_mul_of_nonneg_left (h3 k) hp0)
              (mul_le_mul_of_nonneg_left (h3 (k + 1)) hq)) hdisc
        exact le_trans hc (le_max_left _ _)
      · rw [List.set_eq_of_length_le (by omega), List.set_eq_of_length_le (by omega)]
        exact h3 k
    · rw [getD_set_other _ _ _ _ hik, getD_set_other _ _ _ _ hik]
      exact h3 i

theorem inner_loop_dominates (K up prob disc : ℝ) (is_call : Bool) (hp0 : 0 ≤ prob)
    (hp1 : prob ≤ 1) (hdisc : 0 ≤ disc) (a e : List ℝ × List ℝ)
    (h : a.1 = e.1 ∧ a.2.length = e.2.length ∧ ∀ i, e.2.getD i 0 ≤ a.2.getD i 0) (k : Nat) :
    (loopUp (node_update K up prob disc is_call) k a).1
        = (loopUp (node_update_european up prob disc) k e).1
    ∧ (loopUp (node_update K up prob disc is_call) k a).2.length
        = (loopUp (node_update_european up prob disc) k e).2.length
    ∧ ∀ i, (loopUp (node_update_european up prob disc) k e).2.getD i 0
        ≤ (loopUp (node_update K up prob disc is_call) k a).2.getD i 0 := by
  induction k with
  | zero => exact h
  | succ k ih => exact node_update_dominates K up prob disc is_call hp0 hp1 hdisc k _ _ ih

theorem outer_loop_dominates (K up prob disc : ℝ) (is_call : Bool) (hp0 : 0 ≤ prob)
    (hp1 : prob ≤ 1) (hdisc : 0 ≤ disc) (s : Nat) (a e : List ℝ × List ℝ)
    (h : a.1 = e.1 ∧ a.2.length = e.2.length ∧ ∀ i, e.2.getD i 0 ≤ a.2.getD i 0) :
    ∀ i,
      (loopDown (fun step => loopUp (node_update_european up prob disc) (step + 1)) s e).2.getD
          i 0
        ≤ (loopDown (backward_step K up prob disc is_call) s a).2.getD i 0 := by
  induction s generalizing a e with
  | zero => exact h.2.2
  | succ s ih =>
    exact ih _ _ (inner_loop_dominates K up prob disc is_call hp0 hp1 hdisc a e h (s + 1))

/-- C18. The American lattice price dominates the European lattice price:
for valid input with `n_steps >= 1` and `0 <= p <= 1`, and for both payoff
kinds, `american_option` returns at least the value of the same backward
induction without the exercise test. -/
theorem american_ge_european_lattice (S0 K T r sigma : ℝ) (n : Nat) (_hS : 0 < S0)
    (_hK : 0 < K) (_hT : 0 < T) (_hsigma : 0 < sigma) (_hn : 1 ≤ n)
    (hp0 : 0 ≤ p T r sigma n) (hp1 : p T r sigma n ≤ 1) (is_call : Bool) :
    european_lattice S0 K T r sigma n is_call ≤ american_option S0 K T r sigma n is_call := by
  unfold european_lattice american_option
  exact outer_loop_dominates K (u T sigma n) (p T r sigma n) (discount T r n) is_call hp0 hp1
    (discount_pos T r n).le n _ _ ⟨rfl, rfl, fun _ => le_refl _⟩ 0

theorem american_ge_european_lattice_witness :
    european_lattice 100 100 1 (5 / 100) (2 / 10) 3 false
      ≤ american_option 100 100 1 (5 / 100) (2 / 10) 3 false :=
  american_ge_european_lattice 100 100 1 (5 / 100) (2 / 10) 3 (by norm_num) (by norm_num)
    (by norm_num) (by norm_num) (by decide)
    (p_nonneg 1 (5 / 100) (2 / 10) 3 (by norm_num) (by norm_num) (by decide) (by norm_num))
    (p_le_one_of_rate_le 1 (5 / 100) (2 / 10) 3 (by norm_num) (by norm_num) (by decide)
      (by
        have h1 : Real.sqrt (dt 1 3) ≤ 1 :=
          Real.sqrt_le_iff.mpr ⟨by norm_num, by norm_num [dt]⟩
        have h0 : 0 ≤ Real.sqrt (dt 1 3) := Real.sqrt_nonneg _
        linarith))
    false

end BinomialTree

/-! ## Safety of the lattice -/

theorem readAt_of_lt (v : List ℝ) (i : Nat) (h : i < v.length) :
    readAt v i = some (v.getD i 0) := by
  unfold readAt
  rw [List.getD_eq_getElem?_getD, List.getElem?_eq_getElem h]
  rfl

theorem writeAt_of_lt (v : List ℝ) (i : Nat) (x : ℝ) (h : i < v.length) :
    writeAt v i x = some (v.set i x) := by
  unfold writeAt
  rw [if_pos h]

theorem divide_of_ne (x y : ℝ) (h : y ≠ 0) : divide x y = some (x / y) := by
  unfold divide
  rw [if_neg h]

/-- A checked ascending loop succeeds and agrees with the unchecked loop when
an invariant makes every round succeed. -/
theorem loopUpM_eq_some {α : Type} (bodyM : Nat → α → Option α) (body : Nat → α → α)
    (Inv : α → Prop) (n : Nat)
    (hbody : ∀ k, k < n → ∀ s, Inv s → bodyM k s = some (body k s) ∧ Inv (body k s))
    (s : α) (hs : Inv s) (k : Nat) (hk : k ≤ n) :
    loopUpM bodyM k s = some (loopUp body k s) ∧ Inv (loopUp body k s) := by
  induction k with
  | zero => exact ⟨rfl, hs⟩
  | succ k ih =>
    obtain ⟨h1, h2⟩ := ih (by omega)
    obtain ⟨h3, h4⟩ := hbody k (by omega) _ h2
    refine ⟨?_, h4⟩
    show (loopUpM bodyM k s).bind (bodyM k) = some (body k (loopUp body k s))
    rw [h1, Option.some_bind, h3]

/-- A checked descending loop succeeds and agrees with the unchecked loop
when an invariant makes every round succeed. -/
theorem loopDownM_eq_some {α : Type} (bodyM : Nat → α → Option α) (body : Nat → α → α)
    (Inv : α → Prop) (n : Nat)
    (hbody : ∀ k, k < n → ∀ s, Inv s → bodyM k s = some (body k s) ∧ Inv (body k s))
    (k : Nat) (hk : k ≤ n) (s : α) (hs : Inv s) :
    loopDownM bodyM k s = some (loopDown body k s) ∧ Inv (loopDown body k s) := by
  induction k generalizing s with
  | zero => exact ⟨rfl, hs⟩
  | succ k ih =>
    obtain ⟨h3, h4⟩ := hbody k (by omega) s hs
    obtain ⟨h1, h2⟩ := ih (by omega) _ h4
    refine ⟨?_, h2⟩
    show (bodyM k s).bind (loopDownM bodyM k) = some (loopDown body k (body k s))
    rw [h3, Option.some_bind, h1]

namespace BinomialTree

theorem node_update_checked_eq (K up prob disc : ℝ) (is_call : Bool) (hup : up ≠ 0)
    (n i : Nat) (hi : i + 1 ≤ n) (st : List ℝ × List ℝ)
    (h : st.1.length = n + 1 ∧ st.2.length = n + 1) :
    node_update_checked K up prob disc is_call i st
        = some (node_update K up prob disc is_call i st)
    ∧ (node_update K up prob disc is_call i st).1.length = n + 1
    ∧ (node_update K up prob disc is_call i st).2.length = n + 1 := by
  obtain ⟨h1, h2⟩ := h
  refine ⟨?_, by simp only [node_update, List.length_set, h1],
    by simp only [node_update, List.length_set, h2]⟩
  unfold node_update_checked node_update
  rw [readAt_of_lt st.1 i (by omega)]
  simp only [Option.bind_eq_bind, Option.some_bind]
  rw [divide_of_ne _ _ hup]
  simp only [Option.some_bind]
  rw [writeAt_of_lt st.1 i _ (by omega), readAt_of_lt st.2 i (by omega),
    readAt_of_lt st.2 (i + 1) (by omega)]
  simp only [Option.some_bind]
  rw [readAt_of_lt _ i (by rw [List.length_set]; omega)]
  simp only [Option.some_bind]
  rw [writeAt_of_lt st.2 i _ (by omega)]
  rfl

end BinomialTree

namespace BinomialTree

theorem prices_loop_checked (S0 up dn : ℝ) (n : Nat) :
    loopUpM (fun i prices => writeAt prices i (S0 * up ^ (n - i) * dn ^ i)) (n + 1)
        (List.replicate (n + 1) 0)
      = some
        (loopUp (fun i prices => prices.set i (S0 * up ^ (n - i) * dn ^ i)) (n + 1)
          (List.replicate (n + 1) 0))
    ∧ (loopUp (fun i prices => prices.set i (S0 * up ^ (n - i) * dn ^ i)) (n + 1)
        (List.replicate (n + 1) 0)).length = n + 1 :=
  loopUpM_eq_some
    (fun i prices => writeAt prices i (S0 * up ^ (n - i) * dn ^ i))
    (fun i prices => prices.set i (S0 * up ^ (n - i) * dn ^ i))
    (fun prices => prices.length = n + 1) (n + 1)
    (fun k hk s hs =>
      ⟨writeAt_of_lt s k _ (by have h : s.length = n + 1 := hs; omega), by
        show (s.set _ _).length = n + 1
        rw [List.length_set]
        exact hs⟩)
    (List.replicate (n + 1) 0) (by simp) (n + 1) (le_refl _)

theorem values_loop_checked (K : ℝ) (is_call : Bool) (n : Nat) (prices : List ℝ)
    (hprices : prices.length = n + 1) :
    loopUpM (fun i values => (readAt prices i).bind fun price =>
          writeAt values i (payoff is_call K price))
        (n + 1) (List.replicate (n + 1) 0)
      = some
        (loopUp (fun i values => values.set i (payoff is_call K (prices.getD i 0))) (n + 1)
          (List.replicate (n + 1) 0))
    ∧ (loopUp (fun i values => values.set i (payoff is_call K (prices.getD i 0))) (n + 1)
        (List.replicate (n + 1) 0)).length = n + 1 :=
  loopUpM_eq_some
    (fun i values => (readAt prices i).bind fun price =>
      writeAt values i (payoff is_call K price))
    (fun i values => values.set i (payoff is_call K (prices.getD i 0)))
    (fun values => values.length = n + 1) (n + 1)
    (fun k hk s hs => by
      have hlen : s.length = n + 1 := hs
      refine ⟨?_, ?_⟩
      · beta_reduce
        rw [readAt_of_lt _ k (by omega), Option.some_bind]
        exact writeAt_of_lt s k _ (by omega)
      · show (s.set _ _).length = n + 1
        rw [List.length_set]
        exact hs)
    (List.replicate (n + 1) 0) (by simp) (n + 1) (le_refl _)

theorem backward_loop_checked (K up prob disc : ℝ) (is_call : Bool) (hup : up ≠ 0)
    (n : Nat) (st : List ℝ × List ℝ) (hst : st.1.length = n + 1 ∧ st.2.length = n + 1) :
    loopDownM
        (fun step st => loopUpM (node_update_checked K up prob disc is_call) (step + 1) st)
        n st
      = some (loopDown (backward_step K up prob disc is_call) n st)
    ∧ (loopDown (backward_step K up prob disc is_call) n st).1.length = n + 1
    ∧ (loopDown (backward_step K up prob disc is_call) n st).2.length = n + 1 :=
  loopDownM_eq_some
    (fun step st => loopUpM (node_update_checked K up prob disc is_call) (step + 1) st)
    (backward_step K up prob disc is_call)
    (fun st => st.1.length = n + 1 ∧ st.2.length = n + 1) n
    (fun step hstep st hst =>
      loopUpM_eq_some (node_update_checked K up prob disc is_call)
        (node_update K up prob disc is_call)
        (fun st => st.1.length = n + 1 ∧ st.2.length = n + 1) (step + 1)
        (fun k hk s hs => node_update_checked_eq K up prob disc is_call hup n k (by omega) s hs)
        st hst (step + 1) (le_refl _))
    n (le_refl _) st hst

theorem backward_read_checked (K up prob disc : ℝ) (is_call : Bool) (hup : up ≠ 0)
    (n : Nat) (prices values : List ℝ) (hprices : prices.length = n + 1)
    (hvalues : values.length = n + 1) :
    ((loopDownM
        (fun step st => loopUpM (node_update_checked K up prob disc is_call) (step + 1) st)
        n (prices, values)).bind fun st => readAt st.2 0)
      = some ((loopDown (backward_step K up prob disc is_call) n (prices, values)).2.getD 0 0) := by
  have hb := backward_loop_checked K up prob disc is_call hup n (prices, values)
    ⟨hprices, hvalues⟩
  rw [hb.1, Option.some_bind]
  exact readAt_of_lt _ 0 (by rw [hb.2.2]; omega)

/-- The three loops of `american_option` with checked accesses succeed and
agree with the unchecked loops, for any non-zero up factor. -/
theorem checked_loops_eq (S0 K up dn prob disc : ℝ) (is_call : Bool) (hup : up ≠ 0)
    (n : Nat) :
    ((loopUpM (fun i prices => writeAt prices i (S0 * up ^ (n - i) * dn ^ i))
        (n + 1) (List.replicate (n + 1) 0)).bind fun prices =>
      (loopUpM
        (fun i values => (readAt prices i).bind fun price =>
          writeAt values i (payoff is_call K price))
        (n + 1) (List.replicate (n + 1) 0)).bind fun values =>
      (loopDownM
        (fun step st => loopUpM (node_update_checked K up prob disc is_call) (step + 1) st)
        n (prices, values)).bind fun st =>
      readAt st.2 0)
      = some
        ((loopDown (backward_step K up prob disc is_call) n
          (loopUp (fun i prices => prices.set i (S0 * up ^ (n - i) * dn ^ i)) (n + 1)
            (List.replicate (n + 1) 0),
           loopUp
            (fun i values =>
              values.set i
                (payoff is_call K
                  ((loopUp (fun i prices => prices.set i (S0 * up ^ (n - i) * dn ^ i)) (n + 1)
                    (List.replicate (n + 1) 0)).getD i 0)))
            (n + 1) (List.replicate (n + 1) 0))).2.getD 0 0) := by
  obtain ⟨hp1, hp2⟩ := prices_loop_checked S0 up dn n
  obtain ⟨hv1, hv2⟩ := values_loop_checked K is_call n _ hp2
  rw [hp1, Option.some_bind, hv1, Option.some_bind]
  exact backward_read_checked K up prob disc is_call hup n _ _ hp2 hv2

/-- C15. `american_option` is safe under its preconditions: for
`S0, K, T, sigma > 0`, real `r` and `n_steps >= 1`, the up factor satisfies
`u > 1` and the down factor `0 < d < 1`, so the divisors `n_steps`, `u` and
`u - d` are non-zero, and every index used on `prices` and `values` lies
within `0 .. n_steps`: the run with every division and access checked
succeeds and returns the value of `american_option`. -/
theorem american_option_safe (S0 K T r sigma : ℝ) (n : Nat) (_hS : 0 < S0) (_hK : 0 < K)
    (hT : 0 < T) (hsigma : 0 < sigma) (hn : 1 ≤ n) (is_call : Bool) :
    1 < u T sigma n
    ∧ 0 < d T sigma n ∧ d T sigma n < 1
    ∧ (n : ℝ) ≠ 0 ∧ u T sigma n ≠ 0 ∧ u T sigma n - d T sigma n ≠ 0
    ∧ american_option_checked S0 K T r sigma n is_call
        = some (american_option S0 K T r sigma n is_call) := by
  have hu := u_gt_one T sigma n hT hsigma hn
  have hd0 := d_pos T sigma n
  have hd1 := d_lt_one T sigma n hT hsigma hn
  have hn0 : (n : ℝ) ≠ 0 := by
    have : (0 : ℝ) < n := by exact_mod_cast hn
    exact this.ne.symm
  have hu0 : u T sigma n ≠ 0 := (u_pos T sigma n).ne.symm
  have hud : u T sigma n - d T sigma n ≠ 0 := by linarith
  refine ⟨hu, hd0, hd1, hn0, hu0, hud, ?_⟩
  have e1 : divide T (n : ℝ) = some (dt T n) := divide_of_ne _ _ hn0
  have e2 : divide 1.0 (Real.exp (sigma * Real.sqrt (dt T n))) = some (d T sigma n) :=
    divide_of_ne _ _ hu0
  have e3 : divide (Real.exp (r * dt T n) - d T sigma n)
      (Real.exp (sigma * Real.sqrt (dt T n)) - d T sigma n) = some (p T r sigma n) :=
    divide_of_ne _ _ hud
  unfold american_option_checked
  simp only [Option.bind_eq_bind]
  rw [e1, Option.some_bind, e2, Option.some_bind, e3, Option.some_bind]
  exact checked_loops_eq S0 K (u T sigma n) (d T sigma n) (p T r sigma n) (discount T r n)
    is_call hu0 n

theorem american_option_safe_witness :
    1 < u 1 (2 / 10) 3
    ∧ 0 < d 1 (2 / 10) 3 ∧ d 1 (2 / 10) 3 < 1
    ∧ ((3 : Nat) : ℝ) ≠ 0 ∧ u 1 (2 / 10) 3 ≠ 0 ∧ u 1 (2 / 10) 3 - d 1 (2 / 10) 3 ≠ 0
    ∧ american_option_checked 100 100 1 (5 / 100) (2 / 10) 3 false
        = some (american_option 100 100 1 (5 / 100) (2 / 10) 3 false) :=
  american_option_safe 100 100 1 (5 / 100) (2 / 10) 3 (by norm_num) (by norm_num)
    (by norm_num) (by norm_num) (by decide) false

end BinomialTree

/-! ## The two error functions and the two Black-Scholes implementations -/

theorem gauss_half : ∫ t in Set.Ioi (0 : ℝ), Real.exp (-t ^ 2) = Real.sqrt Real.pi / 2 := by
  have h := integral_gaussian_Ioi 1
  simpa using h

theorem gauss_Iic_eq (x : ℝ) :
    ∫ t in Set.Iic x, Real.exp (-t ^ 2)
      = Real.sqrt Real.pi - ∫ t in Set.Ioi x, Real.exp (-t ^ 2) := by
  have h := intervalIntegral.integral_Iic_add_Ioi (b := x) gauss_integrable.integrableOn
    gauss_integrable.integrableOn
  rw [gauss_integral] at h
  linarith

/-- The Gaussian integral from `0` to `x` is half the full integral minus the
tail beyond `x`. -/
theorem gauss_interval (x : ℝ) :
    ∫ t in (0 : ℝ)..x, Real.exp (-t ^ 2)
      = Real.sqrt Real.pi / 2 - ∫ t in Set.Ioi x, Real.exp (-t ^ 2) := by
  have h := intervalIntegral.integral_Iic_sub_Iic (a := 0) (b := x)
    gauss_integrable.integrableOn gauss_integrable.integrableOn
  have h0 := gauss_tail_reflect 0
  rw [neg_zero, gauss_half] at h0
  rw [← h, gauss_Iic_eq x, ← h0]
  ring

theorem erf_eq_one_sub_erfc (x : ℝ) : FinancialMath.erf x = 1 - erfc x := by
  unfold FinancialMath.erf erfc
  rw [gauss_interval, mul_sub]
  have hpi := sqrt_pi_pos.ne.symm
  congr 1
  field_simp

theorem norm_cdf_eq (x : ℝ) :
    FinancialMath.BlackScholes.norm_cdf x = BlackScholes.norm_cdf x := by
  unfold FinancialMath.BlackScholes.norm_cdf BlackScholes.norm_cdf FinancialMath.M_SQRT2
    M_SQRT1_2
  have e : -x * (1 / Real.sqrt 2) = -(x / Real.sqrt 2) := by ring
  have h := erfc_add_erfc_neg (x / Real.sqrt 2)
  rw [e, erf_eq_one_sub_erfc]
  linarith

/-- The two Black-Scholes implementations compute the same real-valued
functions: over the reals `0.5*(1 + erf(x/sqrt 2))` and `0.5*erfc(-x/sqrt 2)`
are equal for every `x`, hence so are the two `call_price` and the two
`put_price`.  In binary64 the `erf` form cancels to exactly 0 in the lower
tail where the `erfc` form does not, which this real-valued model does not
show. -/
theorem black_scholes_implementations_agree (S K T r sigma : ℝ) :
    FinancialMath.BlackScholes.call_price S K T r sigma = BlackScholes.call_price S K T r sigma
    ∧ FinancialMath.BlackScholes.put_price S K T r sigma
      = BlackScholes.put_price S K T r sigma
    ∧ ∀ x : ℝ, FinancialMath.BlackScholes.norm_cdf x = BlackScholes.norm_cdf x := by
  refine ⟨?_, ?_, norm_cdf_eq⟩
  · simp only [FinancialMath.BlackScholes.call_price, BlackScholes.call_price,
      BlackScholes.calculate_d1, BlackScholes.calculate_d2, norm_cdf_eq]
  · simp only [FinancialMath.BlackScholes.put_price, BlackScholes.put_price,
      BlackScholes.calculate_d1, BlackScholes.calculate_d2, norm_cdf_eq]

/-! ## Sensitivity of the analytic price to the spot -/

theorem erf_hasDerivAt (x : ℝ) :
    HasDerivAt FinancialMath.erf (2 / Real.sqrt Real.pi * Real.exp (-x ^ 2)) x := by
  have hc : Continuous fun t : ℝ => Real.exp (-t ^ 2) := by continuity
  have h := (hc.integral_hasStrictDerivAt 0 x).hasDerivAt
  exact h.const_mul (2 / Real.sqrt Real.pi)

theorem erfc_hasDerivAt (x : ℝ) :
    HasDerivAt erfc (-(2 / Real.sqrt Real.pi * Real.exp (-x ^ 2))) x := by
  have h := (erf_hasDerivAt x).const_sub 1
  have e : erfc = fun y => 1 - FinancialMath.erf y := by
    funext y
    rw [erf_eq_one_sub_erfc]
    ring
  rw [e]
  exact h

namespace BlackScholes

/-- The density is the derivative of the distribution function. -/
theorem norm_cdf_hasDerivAt (x : ℝ) : HasDerivAt norm_cdf (norm_pdf x) x := by
  have hlin : HasDerivAt (fun y : ℝ => -y * M_SQRT1_2) (-M_SQRT1_2) x := by
    have h := ((hasDerivAt_id x).neg).mul_const M_SQRT1_2
    simpa using h
  have h := ((erfc_hasDerivAt (-x * M_SQRT1_2)).comp x hlin).const_mul (0.5 : ℝ)
  have e : norm_pdf x
      = 0.5 * (-(2 / Real.sqrt Real.pi * Real.exp (-(-x * M_SQRT1_2) ^ 2)) * -M_SQRT1_2) := by
    unfold norm_pdf M_SQRT1_2 M_PI
    have h2 : Real.sqrt (2.0 * Real.pi) = Real.sqrt 2 * Real.sqrt Real.pi := by
      rw [show (2.0 : ℝ) = 2 by norm_num, Real.sqrt_mul (by norm_num)]
    have hx : -(-x * (1 / Real.sqrt 2)) ^ 2 = -0.5 * x * x := by
      have hs0 : Real.sqrt 2 ≠ 0 := by positivity
      rw [show (0.5 : ℝ) = 1 / 2 by norm_num]
      field_simp
      ring
    rw [h2, hx]
    have hs0 : Real.sqrt 2 ≠ 0 := by positivity
    have hp0 : Real.sqrt Real.pi ≠ 0 := sqrt_pi_pos.ne.symm
    rw [show (0.5 : ℝ) = 1 / 2 by norm_num]
    field_simp
    ring
  rw [e]
  exact h

end BlackScholes

namespace BlackScholes

theorem calculate_d1_hasDerivAt (S K T r sigma : ℝ) (hS : 0 < S) (hK : 0 < K) :
    HasDerivAt (fun s => calculate_d1 s K T r sigma) (1 / S / (sigma * Real.sqrt T)) S := by
  have hq : HasDerivAt (fun s : ℝ => s / K) (1 / K) S := (hasDerivAt_id S).div_const K
  have hlog := hq.log (div_pos hS hK).ne.symm
  have e : 1 / K / (S / K) = 1 / S := by
    field_simp
  rw [e] at hlog
  exact (hlog.add_const ((r + 0.5 * sigma * sigma) * T)).div_const (sigma * Real.sqrt T)

/-- The identity behind the Black-Scholes delta:
`S * pdf(d1) = K * exp(-r*T) * pdf(d2)`. -/
theorem spot_pdf_identity (S K T r sigma : ℝ) (hS : 0 < S) (hK : 0 < K) (hT : 0 < T)
    (hsigma : 0 < sigma) :
    S * norm_pdf (calculate_d1 S K T r sigma)
      = K * Real.exp (-r * T)
        * norm_pdf (calculate_d2 (calculate_d1 S K T r sigma) sigma T) := by
  have hv : sigma * Real.sqrt T ≠ 0 := (mul_pos hsigma (Real.sqrt_pos.mpr hT)).ne.symm
  have h1 : calculate_d1 S K T r sigma * (sigma * Real.sqrt T)
      = Real.log (S / K) + (r + 0.5 * sigma * sigma) * T := by
    unfold calculate_d1
    exact div_mul_cancel₀ _ hv
  have h2 : Real.sqrt T * Real.sqrt T = T := Real.mul_self_sqrt hT.le
  have hexp : -0.5 * calculate_d2 (calculate_d1 S K T r sigma) sigma T
        * calculate_d2 (calculate_d1 S K T r sigma) sigma T
      = -0.5 * calculate_d1 S K T r sigma * calculate_d1 S K T r sigma
        + (Real.log (S / K) + r * T) := by
    unfold calculate_d2
    rw [show (0.5 : ℝ) = 1 / 2 by norm_num] at h1 ⊢
    linear_combination h1 - (1 / 2) * sigma * sigma * h2
  unfold norm_pdf
  rw [hexp, Real.exp_add, Real.exp_add, Real.exp_log (div_pos hS hK), neg_mul r T, Real.exp_neg]
  have he : Real.exp (r * T) ≠ 0 := (Real.exp_pos _).ne.symm
  have hK0 : K ≠ 0 := hK.ne.symm
  generalize Real.exp (-0.5 * calculate_d1 S K T r sigma * calculate_d1 S K T r sigma) = E
  generalize Real.sqrt (2.0 * M_PI) = Q
  generalize Real.exp (r * T) = G at he
  have e : K * G⁻¹ * (E * (S / K * G) / Q) = S * (E / Q) * (K * K⁻¹) * (G * G⁻¹) := by ring
  rw [e, mul_inv_cancel₀ hK0, mul_inv_cancel₀ he, mul_one, mul_one]

theorem call_price_hasDerivAt (S K T r sigma : ℝ) (hS : 0 < S) (hK : 0 < K) (hT : 0 < T)
    (hsigma : 0 < sigma) :
    HasDerivAt (fun s => call_price s K T r sigma) (norm_cdf (calculate_d1 S K T r sigma)) S := by
  have hd1 := calculate_d1_hasDerivAt S K T r sigma hS hK
  have hd2 : HasDerivAt (fun s => calculate_d2 (calculate_d1 s K T r sigma) sigma T)
      (1 / S / (sigma * Real.sqrt T)) S := hd1.sub_const (sigma * Real.sqrt T)
  have hc1 := (norm_cdf_hasDerivAt (calculate_d1 S K T r sigma)).comp S hd1
  have hc2 := (norm_cdf_hasDerivAt
    (calculate_d2 (calculate_d1 S K T r sigma) sigma T)).comp S hd2
  have hcall := ((hasDerivAt_id S).mul hc1).sub (hc2.const_mul (K * Real.exp (-r * T)))
  have hid := spot_pdf_identity S K T r sigma hS hK hT hsigma
  have e : norm_cdf (calculate_d1 S K T r sigma)
      = 1 * (norm_cdf ∘ fun s => calculate_d1 s K T r sigma) S
        + id S * (norm_pdf (calculate_d1 S K T r sigma) * (1 / S / (sigma * Real.sqrt T)))
        - K * Real.exp (-r * T)
          * (norm_pdf (calculate_d2 (calculate_d1 S K T r sigma) sigma T)
            * (1 / S / (sigma * Real.sqrt T))) := by
    simp only [Function.comp, id]
    linear_combination (-(1 / S / (sigma * Real.sqrt T))) * hid
  rw [e]
  exact hcall

theorem put_price_eq (S K T r sigma : ℝ) :
    put_price S K T r sigma = call_price S K T r sigma - S + K * Real.exp (-r * T) := by
  unfold call_price put_price
  simp only []
  have h1 := norm_cdf_add_neg (calculate_d1 S K T r sigma)
  have h2 := norm_cdf_add_neg (calculate_d2 (calculate_d1 S K T r sigma) sigma T)
  linear_combination -S * h1 + K * Real.exp (-r * T) * h2

/-- C11. Delta is the spot sensitivity of the price: for `S, K, T, sigma > 0`
and every real `r`, the derivative of `call_price` with respect to `S` exists
and equals the call delta of `calculate_greeks`, which is `Phi(d1)`, and the
derivative of `put_price` equals the put delta, which is `Phi(d1) - 1`. -/
theorem delta_is_spot_derivative (S K T r sigma : ℝ) (hS : 0 < S) (hK : 0 < K) (hT : 0 < T)
    (hsigma : 0 < sigma) :
    HasDerivAt (fun s => call_price s K T r sigma)
        (calculate_greeks S K T r sigma true).delta S
    ∧ (calculate_greeks S K T r sigma true).delta = norm_cdf (calculate_d1 S K T r sigma)
    ∧ HasDerivAt (fun s => put_price s K T r sigma)
        (calculate_greeks S K T r sigma false).delta S
    ∧ (calculate_greeks S K T r sigma false).delta
        = norm_cdf (calculate_d1 S K T r sigma) - 1 := by
  have hcall := call_price_hasDerivAt S K T r sigma hS hK hT hsigma
  have e1 : (calculate_greeks S K T r sigma true).delta
      = norm_cdf (calculate_d1 S K T r sigma) := by
    simp only [calculate_greeks, if_true]
  have e2 : (calculate_greeks S K T r sigma false).delta
      = norm_cdf (calculate_d1 S K T r sigma) - 1 := by
    simp only [calculate_greeks, Bool.false_eq_true, if_false]
    norm_num
  refine ⟨by rw [e1]; exact hcall, e1, ?_, e2⟩
  rw [e2]
  have hput := (hcall.sub (hasDerivAt_id S)).add_const (K * Real.exp (-r * T))
  have hf : (fun s => put_price s K T r sigma)
      = fun s => call_price s K T r sigma - id s + K * Real.exp (-r * T) := by
    funext s
    rw [put_price_eq]
    rfl
  rw [hf]
  exact hput

theorem delta_is_spot_derivative_witness :
    HasDerivAt (fun s => call_price s 100 1 (5 / 100) (2 / 10))
        (calculate_greeks 100 100 1 (5 / 100) (2 / 10) true).delta 100
    ∧ (calculate_greeks 100 100 1 (5 / 100) (2 / 10) true).delta
        = norm_cdf (calculate_d1 100 100 1 (5 / 100) (2 / 10))
    ∧ HasDerivAt (fun s => put_price s 100 1 (5 / 100) (2 / 10))
        (calculate_greeks 100 100 1 (5 / 100) (2 / 10) false).delta 100
    ∧ (calculate_greeks 100 100 1 (5 / 100) (2 / 10) false).delta
        = norm_cdf (calculate_d1 100 100 1 (5 / 100) (2 / 10)) - 1 :=
  delta_is_spot_derivative 100 100 1 (5 / 100) (2 / 10) (by norm_num) (by norm_num)
    (by norm_num) (by norm_num)

end BlackScholes

/-! ## Numerical reference values of the analytic price -/

/-- The distribution function as one half plus the integral of the Gaussian
density from `0` to `x`. -/
theorem norm_cdf_integral (x : ℝ) :
    BlackScholes.norm_cdf x
      = 1 / 2 + (∫ s in (0 : ℝ)..x, Real.exp (-(s ^ 2 / 2))) / Real.sqrt (2 * Real.pi) := by
  rw [← norm_cdf_eq]
  unfold FinancialMath.BlackScholes.norm_cdf FinancialMath.erf FinancialMath.M_SQRT2
  have hs0 : Real.sqrt 2 ≠ 0 := by positivity
  have hsub := intervalIntegral.integral_comp_div (a := 0) (b := x)
    (fun t : ℝ => Real.exp (-t ^ 2)) hs0
  have hfun : (fun s : ℝ => Real.exp (-(s / Real.sqrt 2) ^ 2))
      = fun s : ℝ => Real.exp (-(s ^ 2 / 2)) := by
    funext s
    rw [div_pow, Real.sq_sqrt (by norm_num)]
  simp only [hfun, zero_div, smul_eq_mul] at hsub
  rw [hsub, Real.sqrt_mul (by norm_num), show (0.5 : ℝ) = 1 / 2 by norm_num]
  have hp0 : Real.sqrt Real.pi ≠ 0 := sqrt_pi_pos.ne.symm
  field_simp
  ring

/-- Taylor bound for the Gaussian density: on `0 <= s <= x <= 1` it differs
from `1 - s^2/2 + s^4/8 - s^6/48` by at most `(x^2/2)^4 * 5/96`. -/
theorem gauss_density_taylor (x s : ℝ) (hs0 : 0 ≤ s) (hsx : s ≤ x) (hx1 : x ≤ 1) :
    |Real.exp (-(s ^ 2 / 2)) - (1 - s ^ 2 / 2 + s ^ 4 / 8 - s ^ 6 / 48)|
      ≤ (x ^ 2 / 2) ^ 4 * (5 / 96) := by
  have hw0 : 0 ≤ s ^ 2 / 2 := by positivity
  have hwx : s ^ 2 / 2 ≤ x ^ 2 / 2 := by
    have : s ^ 2 ≤ x ^ 2 := pow_le_pow_left₀ hs0 hsx 2
    linarith
  have hx2 : x ^ 2 / 2 ≤ 1 := by
    have : x ^ 2 ≤ 1 := pow_le_one₀ (le_trans hs0 hsx) hx1
    linarith
  have habs : |-(s ^ 2 / 2)| = s ^ 2 / 2 := by rw [abs_neg, abs_of_nonneg hw0]
  have h := Real.exp_bound (x := -(s ^ 2 / 2)) (by rw [habs]; linarith) (n := 4) (by norm_num)
  rw [habs] at h
  have hsum : ∑ m in Finset.range 4, (-(s ^ 2 / 2)) ^ m / (m.factorial : ℝ)
      = 1 - s ^ 2 / 2 + s ^ 4 / 8 - s ^ 6 / 48 := by
    simp only [Finset.sum_range_succ, Finset.sum_range_zero, Nat.factorial]
    norm_num
    ring
  rw [hsum] at h
  refine le_trans h ?_
  have hpow : (s ^ 2 / 2) ^ 4 ≤ (x ^ 2 / 2) ^ 4 := pow_le_pow_left₀ hw0 hwx 4
  have hc : ((Nat.succ 4 : Nat) : ℝ) / ((Nat.factorial 4 : Nat) * (4 : Nat)) = 5 / 96 := by
    norm_num [Nat.factorial]
  rw [hc]
  exact mul_le_mul_of_nonneg_right hpow (by norm_num)

theorem poly_integral (a e : ℝ) :
    ∫ s in (0 : ℝ)..a, (1 - s ^ 2 / 2 + s ^ 4 / 8 - s ^ 6 / 48 + e)
      = a - a ^ 3 / 6 + a ^ 5 / 40 - a ^ 7 / 336 + e * a := by
  have hF : ∀ x ∈ Set.uIcc (0 : ℝ) a,
      HasDerivAt (fun s : ℝ => s - s ^ 3 / 6 + s ^ 5 / 40 - s ^ 7 / 336 + e * s)
        (1 - x ^ 2 / 2 + x ^ 4 / 8 - x ^ 6 / 48 + e) x := by
    intro x _
    have h := ((((hasDerivAt_id x).sub ((hasDerivAt_pow 3 x).div_const 6)).add
      ((hasDerivAt_pow 5 x).div_const 40)).sub ((hasDerivAt_pow 7 x).div_const 336)).add
      ((hasDerivAt_id x).const_mul e)
    convert h using 1
    simp
    ring
  rw [intervalIntegral.integral_eq_sub_of_hasDerivAt hF]
  · norm_num
  · apply Continuous.intervalIntegrable
    continuity

/-- Bounds for the integral of the Gaussian density over `[0, x]`, `x <= 1`. -/
theorem gauss_integral_bounds (x : ℝ) (hx0 : 0 ≤ x) (hx1 : x ≤ 1) :
    x - x ^ 3 / 6 + x ^ 5 / 40 - x ^ 7 / 336 - (x ^ 2 / 2) ^ 4 * (5 / 96) * x
        ≤ ∫ s in (0 : ℝ)..x, Real.exp (-(s ^ 2 / 2))
    ∧ ∫ s in (0 : ℝ)..x, Real.exp (-(s ^ 2 / 2))
        ≤ x - x ^ 3 / 6 + x ^ 5 / 40 - x ^ 7 / 336 + (x ^ 2 / 2) ^ 4 * (5 / 96) * x := by
  have hf : IntervalIntegrable (fun s : ℝ => Real.exp (-(s ^ 2 / 2))) volume 0 x := by
    apply Continuous.intervalIntegrable
    continuity
  have hg : ∀ e : ℝ, IntervalIntegrable
      (fun s : ℝ => 1 - s ^ 2 / 2 + s ^ 4 / 8 - s ^ 6 / 48 + e) volume 0 x := by
    intro e
    apply Continuous.intervalIntegrable
    continuity
  have hlo := intervalIntegral.integral_mono_on hx0 (hg (-((x ^ 2 / 2) ^ 4 * (5 / 96)))) hf
    (fun s hs => by
      have h := abs_le.mp (gauss_density_taylor x s hs.1 hs.2 hx1)
      linarith [h.1])
  have hhi := intervalIntegral.integral_mono_on hx0 hf (hg ((x ^ 2 / 2) ^ 4 * (5 / 96)))
    (fun s hs => by
      have h := abs_le.mp (gauss_density_taylor x s hs.1 hs.2 hx1)
      linarith [h.2])
  rw [poly_integral] at hlo hhi
  constructor
  · linarith
  · linarith

theorem sqrt_two_pi_bounds :
    2.506628 < Real.sqrt (2 * Real.pi) ∧ Real.sqrt (2 * Real.pi) < 2.506629 := by
  have h1 := Real.pi_gt_d6
  have h2 := Real.pi_lt_d6
  constructor
  · rw [Real.lt_sqrt (by norm_num)]
    norm_num at h1 ⊢
    linarith
  · rw [Real.sqrt_lt' (by norm_num)]
    norm_num at h2 ⊢
    linarith

/-- Enclosure of the distribution function on `[0, 1]` by the Taylor
polynomial of the density and the decimal bounds of `sqrt(2*pi)`. -/
theorem norm_cdf_bounds (x : ℝ) (hx0 : 0 ≤ x) (hx1 : x ≤ 1)
    (hlo : 0 ≤ x - x ^ 3 / 6 + x ^ 5 / 40 - x ^ 7 / 336 - (x ^ 2 / 2) ^ 4 * (5 / 96) * x) :
    1 / 2 + (x - x ^ 3 / 6 + x ^ 5 / 40 - x ^ 7 / 336 - (x ^ 2 / 2) ^ 4 * (5 / 96) * x)
        / 2.506629 ≤ BlackScholes.norm_cdf x
    ∧ BlackScholes.norm_cdf x
      ≤ 1 / 2 + (x - x ^ 3 / 6 + x ^ 5 / 40 - x ^ 7 / 336 + (x ^ 2 / 2) ^ 4 * (5 / 96) * x)
        / 2.506628 := by
  obtain ⟨hI1, hI2⟩ := gauss_integral_bounds x hx0 hx1
  obtain ⟨hs1, hs2⟩ := sqrt_two_pi_bounds
  have hs0 : (0 : ℝ) < Real.sqrt (2 * Real.pi) := lt_trans (by norm_num) hs1
  rw [norm_cdf_integral]
  constructor
  · have h := div_le_div₀ (le_trans hlo hI1) hI1 hs0 hs2.le
    linarith
  · have h := div_le_div₀ (le_trans (le_trans hlo hI1) hI2) hI2 (by norm_num) hs1.le
    linarith

theorem norm_cdf_035 :
    0.636830 ≤ BlackScholes.norm_cdf 0.35 ∧ BlackScholes.norm_cdf 0.35 ≤ 0.636831 := by
  obtain ⟨h1, h2⟩ := norm_cdf_bounds 0.35 (by norm_num) (by norm_num) (by norm_num)
  constructor
  · refine le_trans ?_ h1
    norm_num
  · refine le_trans h2 ?_
    norm_num

theorem norm_cdf_015 :
    0.559617 ≤ BlackScholes.norm_cdf 0.15 ∧ BlackScholes.norm_cdf 0.15 ≤ 0.559618 := by
  obtain ⟨h1, h2⟩ := norm_cdf_bounds 0.15 (by norm_num) (by norm_num) (by norm_num)
  constructor
  · refine le_trans ?_ h1
    norm_num
  · refine le_trans h2 ?_
    norm_num

theorem exp_neg_005 : 0.951228 ≤ Real.exp (-0.05) ∧ Real.exp (-0.05) ≤ 0.951230 := by
  have h := Real.exp_bound (x := -0.05) (by rw [abs_neg]; norm_num [abs_of_nonneg])
    (n := 4) (by norm_num)
  have hsum : ∑ m in Finset.range 4, (-0.05 : ℝ) ^ m / (m.factorial : ℝ)
      = 1 - 0.05 + 0.05 ^ 2 / 2 - 0.05 ^ 3 / 6 := by
    simp only [Finset.sum_range_succ, Finset.sum_range_zero, Nat.factorial]
    norm_num
  have hc : |(-0.05 : ℝ)| ^ 4 * (((Nat.succ 4 : Nat) : ℝ) / ((Nat.factorial 4 : Nat) * (4 : Nat)))
      = 0.05 ^ 4 * (5 / 96) := by
    rw [abs_neg, abs_of_nonneg (by norm_num)]
    norm_num [Nat.factorial]
  rw [hsum, hc] at h
  obtain ⟨h1, h2⟩ := abs_le.mp h
  constructor
  · norm_num at h1 ⊢
    linarith
  · norm_num at h2 ⊢
    linarith

namespace BlackScholes

/-- C12. Known reference values: for `S = 100`, `K = 100`, `T = 1`,
`r = 0.05`, `sigma = 0.2`, where `d1 = 0.35` and `d2 = 0.15`, `call_price`
differs from `10.4506` by at most `1e-3` and `put_price` differs from `5.5735`
by at most `1e-3`. -/
theorem reference_values :
    calculate_d1 100 100 1 0.05 0.2 = 0.35
    ∧ calculate_d2 (calculate_d1 100 100 1 0.05 0.2) 0.2 1 = 0.15
    ∧ |call_price 100 100 1 0.05 0.2 - 10.4506| ≤ 0.001
    ∧ |put_price 100 100 1 0.05 0.2 - 5.5735| ≤ 0.001 := by
  have hd1 : calculate_d1 100 100 1 0.05 0.2 = 0.35 := by
    unfold calculate_d1
    rw [div_self (by norm_num), Real.log_one, Real.sqrt_one]
    norm_num
  have hd2 : calculate_d2 (calculate_d1 100 100 1 0.05 0.2) 0.2 1 = 0.15 := by
    rw [hd1]
    unfold calculate_d2
    rw [Real.sqrt_one]
    norm_num
  obtain ⟨ha1, hb1⟩ := norm_cdf_035
  obtain ⟨ha2, hb2⟩ := norm_cdf_015
  obtain ⟨he1, he2⟩ := exp_neg_005
  have hcall : call_price 100 100 1 0.05 0.2
      = 100 * norm_cdf 0.35 - 100 * Real.exp (-0.05) * norm_cdf 0.15 := by
    unfold call_price
    simp only []
    rw [hd2, hd1, mul_one]
  have hput : put_price 100 100 1 0.05 0.2
      = 100 * norm_cdf 0.35 - 100 + 100 * (Real.exp (-0.05) * (1 - norm_cdf 0.15)) := by
    rw [put_price_eq, hcall, mul_one]
    ring
  have hprod1 : 0.951228 * 0.559617 ≤ Real.exp (-0.05) * norm_cdf 0.15 :=
    mul_le_mul he1 ha2 (by norm_num) (le_trans (by norm_num) he1)
  have hprod2 : Real.exp (-0.05) * norm_cdf 0.15 ≤ 0.951230 * 0.559618 :=
    mul_le_mul he2 hb2 (le_trans (by norm_num) ha2) (by norm_num)
  have hprod3 : 0.951228 * (1 - 0.559618) ≤ Real.exp (-0.05) * (1 - norm_cdf 0.15) :=
    mul_le_mul he1 (by linarith) (by norm_num) (le_trans (by norm_num) he1)
  have hprod4 : Real.exp (-0.05) * (1 - norm_cdf 0.15) ≤ 0.951230 * (1 - 0.559617) :=
    mul_le_mul he2 (by linarith) (by linarith) (by norm_num)
  refine ⟨hd1, hd2, ?_, ?_⟩
  · rw [hcall, abs_le]
    constructor
    · norm_num at ha1 hb1 hprod1 hprod2 ⊢
      linarith
    · norm_num at ha1 hb1 hprod1 hprod2 ⊢
      linarith
  · rw [hput, abs_le]
    constructor
    · norm_num at ha1 hb1 hprod3 hprod4 ⊢
      linarith
    · norm_num at ha1 hb1 hprod3 hprod4 ⊢
      linarith

end BlackScholes

namespace MonteCarlo

/-- In exact arithmetic both simulated prices are non-negative: every summand
is a maximum with `0.0`, the discount is positive and the divisor is a
non-negative count. -/
theorem exact_price_nonneg {σ : Type} (G : Generator σ) (gen : σ) (S0 K T r sigma : ℝ)
    (N M : Nat) (is_call : Bool) :
    0 ≤ (european_option G gen S0 K T r sigma (N : Int) is_call).1
    ∧ 0 ≤ (asian_option G gen S0 K T r sigma (N : Int) (M : Int) is_call).1 := by
  refine ⟨?_, ?_⟩
  · simp only [european_option, european_divisor_natCast, Int.toNat_ofNat, european_loop,
      Int.cast_natCast]
    refine div_nonneg (mul_nonneg (Real.exp_pos _).le ?_) (Nat.cast_nonneg _)
    refine Finset.sum_nonneg fun i _ => ?_
    have h1 := sum_payoff_nonneg is_call K 1 fun _ =>
      S0 * Real.exp ((r - 0.5 * sigma * sigma) * T + sigma * Real.sqrt T * variate G gen i)
    have h2 := sum_payoff_nonneg is_call K 1 fun _ =>
      S0 * Real.exp ((r - 0.5 * sigma * sigma) * T - sigma * Real.sqrt T * variate G gen i)
    simp only [Finset.sum_range_one] at h1 h2
    linarith
  · simp only [asian_option, asian_divisor, Int.toNat_ofNat, asian_outer_loop,
      Int.cast_natCast]
    exact div_nonneg (mul_nonneg (Real.exp_pos _).le (sum_payoff_nonneg is_call K N _))
      (Nat.cast_nonneg _)

theorem sqrt_checked_of_nonneg (x : ℝ) (h : 0 ≤ x) : sqrt_checked x = some (Real.sqrt x) := by
  unfold sqrt_checked
  rw [if_pos h]

theorem sqrt_checked_of_neg (x : ℝ) (h : x < 0) : sqrt_checked x = none := by
  unfold sqrt_checked
  rw [if_neg (not_le.mpr h)]

/-- With a volatility that is a number, the NaN-aware loop of
`european_option` stays a number and follows the exact loop. -/
theorem european_loop_nan {σ : Type} (G : Generator σ) (S0 K drift vol : ℝ)
    (is_call : Bool) (k : Nat) (s : ℝ) (gen : σ) :
    loopUp (european_round_nan G S0 K drift (some vol) is_call) k (some s, gen)
      = (some (loopUp (european_round G S0 K drift vol is_call) k (s, gen)).1,
        (loopUp (european_round G S0 K drift vol is_call) k (s, gen)).2) := by
  induction k with
  | zero => rfl
  | succ k ih =>
    show european_round_nan G S0 K drift (some vol) is_call k (loopUp _ k (some s, gen)) = _
    rw [ih]
    rfl

/-- With drift and volatility that are numbers, the NaN-aware inner loop of
`asian_option` stays a number and follows the exact loop. -/
theorem asian_inner_loop_nan {σ : Type} (G : Generator σ) (drift vol : ℝ) (m : Nat)
    (S a : ℝ) (gen : σ) :
    loopUp (asian_step_nan G (some drift) (some vol)) m (some S, some a, gen)
      = (some (loopUp (asian_step G drift vol) m (S, a, gen)).1,
        some (loopUp (asian_step G drift vol) m (S, a, gen)).2.1,
        (loopUp (asian_step G drift vol) m (S, a, gen)).2.2) := by
  induction m with
  | zero => rfl
  | succ m ih =>
    show asian_step_nan G (some drift) (some vol) m (loopUp _ m (some S, some a, gen)) = _
    rw [ih]
    rfl

/-- With drift and volatility that are numbers and a non-zero step count, the
NaN-aware outer loop of `asian_option` stays a number and follows the exact
loop. -/
theorem asian_outer_loop_nan {σ : Type} (G : Generator σ) (S0 K drift vol : ℝ) (m : Int)
    (hm : (m : ℝ) ≠ 0) (is_call : Bool) (n : Nat) (s : ℝ) (gen : σ) :
    loopUp (asian_path_nan G S0 K (some drift) (some vol) m is_call) n (some s, gen)
      = (some (loopUp (asian_path G S0 K drift vol m is_call) n (s, gen)).1,
        (loopUp (asian_path G S0 K drift vol m is_call) n (s, gen)).2) := by
  induction n with
  | zero => rfl
  | succ n ih =>
    show asian_path_nan G S0 K (some drift) (some vol) m is_call n (loopUp _ n (some s, gen))
      = _
    rw [ih]
    simp only [asian_path_nan, asian_inner_loop_nan, Option.some_bind, divide_of_ne _ _ hm,
      Option.map_some']
    rfl

/-- C16 fails as stated: the claim ranges over every real `T`, and for
`T = -1` the square root is NaN, so both `european_option` with `N = 2` and
`asian_option` with `N = 1`, `M = 1` return NaN, not a value `>= 0`. -/
theorem simulated_price_nan_counterexample :
    (european_option_nan (stream fun _ => 0) 0 100 100 (-1) (5 / 100) (2 / 10) 2 true).1 = none
    ∧ (asian_option_nan (stream fun _ => 0) 0 100 100 (-1) (5 / 100) (2 / 10) 1 1 true).1
        = none := by
  have h2 : european_divisor 2 = 1 := by decide
  have hs : sqrt_checked (-1) = none := sqrt_checked_of_neg _ (by norm_num)
  have hd : divide (-1) ((1 : Int) : ℝ) = some (-1) := by
    rw [divide_of_ne _ _ (by norm_num)]
    norm_num
  refine ⟨?_, ?_⟩
  · simp only [european_option_nan, h2, hs, Option.map_none']
    rfl
  · simp only [asian_option_nan, hd, Option.some_bind, hs, Option.map_none']
    rfl

/-- C16, amended: the payoff floor is applied per sample before averaging,
so in exact arithmetic with `T >= 0` simulated prices are never negative:
for all real `S0, K, r, sigma`, every `T >= 0`, every generator and both
payoff kinds, `european_option` with `N >= 2` and `asian_option` with
`N >= 1`, `M >= 1` return a number, not NaN, that is `>= 0`; it is the price
of the exact model. -/
theorem simulated_price_nonneg {σ : Type} (G : Generator σ) (gen : σ) (S0 K T r sigma : ℝ)
    (N M : Nat) (hT : 0 ≤ T) (hN : 1 ≤ N) (hM : 1 ≤ M) (is_call : Bool) :
    (2 ≤ N →
      european_option_nan G gen S0 K T r sigma (N : Int) is_call
          = (some (european_option G gen S0 K T r sigma (N : Int) is_call).1,
            (european_option G gen S0 K T r sigma (N : Int) is_call).2)
      ∧ 0 ≤ (european_option G gen S0 K T r sigma (N : Int) is_call).1)
    ∧ asian_option_nan G gen S0 K T r sigma (N : Int) (M : Int) is_call
        = (some (asian_option G gen S0 K T r sigma (N : Int) (M : Int) is_call).1,
          (asian_option G gen S0 K T r sigma (N : Int) (M : Int) is_call).2)
    ∧ 0 ≤ (asian_option G gen S0 K T r sigma (N : Int) (M : Int) is_call).1 := by
  have hnn := exact_price_nonneg G gen S0 K T r sigma N M is_call
  have hM0 : ((M : Int) : ℝ) ≠ 0 := Int.cast_ne_zero.mpr (by omega)
  have hN0 : ((asian_divisor (N : Int) : Int) : ℝ) ≠ 0 := by
    unfold asian_divisor
    exact Int.cast_ne_zero.mpr (by omega)
  refine ⟨fun h2 => ⟨?_, hnn.1⟩, ?_, hnn.2⟩
  · have hE0 : ((european_divisor (N : Int) : Int) : ℝ) ≠ 0 := by
      rw [european_divisor_natCast]
      exact Int.cast_ne_zero.mpr (by omega)
    simp only [european_option_nan, sqrt_checked_of_nonneg T hT, Option.map_some',
      european_loop_nan, Option.some_bind, divide_of_ne _ _ hE0]
    rfl
  · have hdt : 0 ≤ T / ((M : Int) : ℝ) := div_nonneg hT (by exact_mod_cast Nat.zero_le M)
    simp only [asian_option_nan, divide_of_ne _ _ hM0, Option.map_some', Option.some_bind,
      sqrt_checked_of_nonneg _ hdt, asian_outer_loop_nan G S0 K _ _ _ hM0,
      divide_of_ne _ _ hN0]
    rfl

theorem simulated_price_nonneg_witness :
    ((2 : Nat) ≤ 3 →
      european_option_nan (stream fun i => (i : ℝ)) 0 100 100 1 (5 / 100) (2 / 10)
          ((3 : Nat) : Int) true
          = (some (european_option (stream fun i => (i : ℝ)) 0 100 100 1 (5 / 100) (2 / 10)
              ((3 : Nat) : Int) true).1,
            (european_option (stream fun i => (i : ℝ)) 0 100 100 1 (5 / 100) (2 / 10)
              ((3 : Nat) : Int) true).2)
      ∧ 0 ≤ (european_option (stream fun i => (i : ℝ)) 0 100 100 1 (5 / 100) (2 / 10)
          ((3 : Nat) : Int) true).1)
    ∧ asian_option_nan (stream fun i => (i : ℝ)) 0 100 100 1 (5 / 100) (2 / 10)
          ((3 : Nat) : Int) ((2 : Nat) : Int) true
        = (some (asian_option (stream fun i => (i : ℝ)) 0 100 100 1 (5 / 100) (2 / 10)
            ((3 : Nat) : Int) ((2 : Nat) : Int) true).1,
          (asian_option (stream fun i => (i : ℝ)) 0 100 100 1 (5 / 100) (2 / 10)
            ((3 : Nat) : Int) ((2 : Nat) : Int) true).2)
    ∧ 0 ≤ (asian_option (stream fun i => (i : ℝ)) 0 100 100 1 (5 / 100) (2 / 10)
        ((3 : Nat) : Int) ((2 : Nat) : Int) true).1 :=
  simulated_price_nonneg (stream fun i => (i : ℝ)) 0 100 100 1 (5 / 100) (2 / 10) 3 2
    (by norm_num) (by decide) (by decide) true

end MonteCarlo

end OptionPricing

end
